import Mathlib

/-!
# tableTK: pairwise distance accumulation (`src/dist.c`) and row filtering (`src/filter_table.c`)

A shallow embedding of the distance engine of `tableDist`: the three metric
functions `calc_canberra`, `calc_manhattan`, `calc_manhattan_binary`, the
pairwise loop `do_pairwise`, the three row handlers, the renderer
`print_dist_mat`, the header handler `process_header` and `parse_args`; and of
`filterTable`: the row handler `ft_num_nonzero` and `parse_args`.

Modelling conventions.

* `cell_t` is the 64-bit storage that the fields `u` and `i` of the C union
  share: `u` reads it as an unsigned integer, `i` as a two's-complement signed
  integer.  The floating point field `d` and the `D64` branch of each `switch`
  use IEEE arithmetic and are outside this development; `cell_mode_t` lists
  the two integer modes.
* The headers `kdm.h` and `ktable.h` are not part of the sources at hand:
  `km_calloc` is taken to return a zeroed block (a failing allocation ends the
  process), and the row source `iter_table` to call the row handler once per
  data row, in order (`observe_rows`).
* Row widths are `size_t` values; the theorems about the handlers take the
  width below `2^32`, where `count * (count + 1)` does not wrap.
* The C library is modelled by what its calls return: `strtok_r` by the list
  of its tokens, `getopt` by the list of option characters with their
  arguments, `fopen` by two predicates on paths, `atol` by a parameter.
* `size_t` and `uint64_t` arithmetic is arithmetic on `Nat` reduced `% 2^64`;
  `int64_t` arithmetic is arithmetic on `Int` wrapped into `[-2^63, 2^63)`.
* Integer division is a trapping operation (`Option`): it has no result for a
  zero divisor, nor for `INT64_MIN / -1`.
* An array access outside the allocated block has no result (`none`).
-/

namespace TableTK

/-! ## Cells and machine arithmetic -/

/-- Two to the 64, the number of bit patterns of a cell. -/
def W64 : Nat := 18446744073709551616

/-- Two to the 63, the first bit pattern read as a negative `int64_t`. -/
def H64 : Nat := 9223372036854775808

/-- Modelled from the spec: the type `cell_t`, declared in `ktable.h`, which is
not among the sources.  A cell is one numeric value read as unsigned 64-bit or
signed 64-bit according to the mode; here it is the 64 bits that the fields
`u` and `i` share. -/
structure cell_t where
  bits : Nat
  lt : bits < W64
deriving DecidableEq

/-- Modelled from the spec: the enumeration `cell_mode_t`, declared in
`ktable.h`, which is not among the sources.  These are its two modes with
integer arithmetic, `U64` and `I64`; the floating mode `D64` is left out. -/
inductive cell_mode_t where
  | U64
  | I64
deriving DecidableEq, Repr

/-- Store an unsigned value into a cell (assignment to the field `u`). -/
def cell_t.ofU (n : Nat) : cell_t := ⟨n % W64, Nat.mod_lt n (by decide)⟩

/-- Store a signed value into a cell (assignment to the field `i`). -/
def cell_t.ofI (z : Int) : cell_t :=
  ⟨(z % (W64 : Int)).toNat,
   by
    have h1 : z % (W64 : Int) < (W64 : Int) := Int.emod_lt_of_pos z (by decide)
    have h2 : 0 ≤ z % (W64 : Int) := Int.emod_nonneg z (by decide)
    omega⟩

/-- Read a cell through the field `u`. -/
def cell_t.u (c : cell_t) : Nat := c.bits

/-- Read a cell through the field `i` (two's complement). -/
def cell_t.i (c : cell_t) : Int :=
  if c.bits < H64 then (c.bits : Int) else (c.bits : Int) - (W64 : Int)

/-- The all-zero cell: what `calloc` yields, and `0`, `0ll`, `0.0` in every field. -/
def cell_t.zero : cell_t := ⟨0, by decide⟩

/-- Wrap a mathematical integer into the range of `int64_t`. -/
def wrap_i64 (z : Int) : Int := (z + (H64 : Int)) % (W64 : Int) - (H64 : Int)

/-- Unsigned subtraction `a - b` of `uint64_t`. -/
def sub_u64 (a b : Nat) : Nat := (a + (W64 - b % W64)) % W64

/-- Unsigned negation `-a` of `uint64_t`. -/
def neg_u64 (a : Nat) : Nat := (W64 - a % W64) % W64

/-- Unsigned addition `a + b` of `uint64_t`. -/
def add_u64 (a b : Nat) : Nat := (a + b) % W64

/-- Signed subtraction `a - b` of `int64_t`, wrapping. -/
def sub_i64 (a b : Int) : Int := wrap_i64 (a - b)

/-- Signed negation `-a` of `int64_t`, wrapping. -/
def neg_i64 (a : Int) : Int := wrap_i64 (-a)

/-- Signed addition `a + b` of `int64_t`, wrapping. -/
def add_i64 (a b : Int) : Int := wrap_i64 (a + b)

/-- Unsigned division `a / b`: no result for a zero divisor. -/
def div_u64 (a b : Nat) : Option Nat :=
  if b = 0 then none else some (a / b)

/-- Signed division `a / b`, truncating: no result for a zero divisor or for
`INT64_MIN / -1`. -/
def div_i64 (a b : Int) : Option Int :=
  if b = 0 then none
  else if a = -(H64 : Int) ∧ b = -1 then none
  else some (Int.tdiv a b)

/-! ## The metric macros -/

/-- Macro `__abs(a)` at type `uint64_t`: `((a) > 0.0) ? (a) : (-(a))`.  The
comparison converts `a` to a floating value, which is positive exactly when
`a` is not zero. -/
def abs_u64 (a : Nat) : Nat := if a > 0 then a else neg_u64 a

/-- Macro `__abs(a)` at type `int64_t`: `((a) > 0.0) ? (a) : (-(a))`. -/
def abs_i64 (a : Int) : Int := if a > 0 then a else neg_i64 a

/-- Macro `KM_ABS_DIFF(a, b)` at type `uint64_t`: `__abs((a) - (b))`. -/
def KM_ABS_DIFF_u64 (a b : Nat) : Nat := abs_u64 (sub_u64 a b)

/-- Macro `KM_ABS_DIFF(a, b)` at type `int64_t`: `__abs((a) - (b))`. -/
def KM_ABS_DIFF_i64 (a b : Int) : Int := abs_i64 (sub_i64 a b)

/-- Macro `KM_ABS_SUM(a, b)` at type `uint64_t`: `__abs(a) + __abs(b)`. -/
def KM_ABS_SUM_u64 (a b : Nat) : Nat := add_u64 (abs_u64 a) (abs_u64 b)

/-- Macro `KM_ABS_SUM(a, b)` at type `int64_t`: `__abs(a) + __abs(b)`. -/
def KM_ABS_SUM_i64 (a b : Int) : Int := add_i64 (abs_i64 a) (abs_i64 b)

/-- Macro `KM_BOOL_DIFF(a, b)`: `!(a) != !(b)`, an `int` that is 0 or 1. -/
def KM_BOOL_DIFF (a b : Bool) : Nat := if (!a) != (!b) then 1 else 0

/-- Macro `KM_NO_DIVZERO_U64(a, b)`: `((b) == 0llu) ? 0llu : (a) / (b)`. -/
def KM_NO_DIVZERO_U64 (a b : Nat) : Option Nat :=
  if b = 0 then some 0 else div_u64 a b

/-- Macro `KM_NO_DIVZERO_I64(a, b)`: `((b) == 0ll) ? 0ll : (a) / (b)`. -/
def KM_NO_DIVZERO_I64 (a b : Int) : Option Int :=
  if b = 0 then some 0 else div_i64 a b

/-! ## The metric functions -/

/-- Function `calc_canberra` of `dist.c`, integer modes. -/
def calc_canberra (left right : cell_t) (mode : cell_mode_t) : Option cell_t :=
  match mode with
  | .U64 =>
    (KM_NO_DIVZERO_U64 (KM_ABS_DIFF_u64 left.u right.u)
      (KM_ABS_SUM_u64 left.u right.u)).map cell_t.ofU
  | .I64 =>
    (KM_NO_DIVZERO_I64 (KM_ABS_DIFF_i64 left.i right.i)
      (KM_ABS_SUM_i64 left.i right.i)).map cell_t.ofI

/-- Function `calc_manhattan` of `dist.c`, integer modes. -/
def calc_manhattan (left right : cell_t) (mode : cell_mode_t) : cell_t :=
  match mode with
  | .U64 => cell_t.ofU (KM_ABS_DIFF_u64 left.u right.u)
  | .I64 => cell_t.ofI (KM_ABS_DIFF_i64 left.i right.i)

/-- Function `calc_manhattan_binary` of `dist.c`, integer modes; the file-scope
variable `binary_cutoff` is the first argument. -/
def calc_manhattan_binary (binary_cutoff : cell_t) (left right : cell_t)
    (mode : cell_mode_t) : cell_t :=
  match mode with
  | .U64 =>
    cell_t.ofU (KM_BOOL_DIFF (decide (left.u > binary_cutoff.u))
      (decide (right.u > binary_cutoff.u)))
  | .I64 =>
    cell_t.ofI (KM_BOOL_DIFF (decide (left.i > binary_cutoff.i))
      (decide (right.i > binary_cutoff.i)))

/-! ## The accumulator -/

/-- The accumulator `dist_mat_t` of `dist.c`.  A `NULL` pointer is `none`; an
allocated block is the list of its slots. -/
structure dist_mat_t where
  samples : Nat
  pairs : Nat
  matrix : Option (List cell_t)
  sample_names : Option (List String)
deriving DecidableEq

/-- The accumulator as `calc_dist_matrix_of_table` creates it: `km_calloc(1, sizeof(*mat))`,
every field zero or `NULL`. -/
def dist_mat_t.fresh : dist_mat_t :=
  { samples := 0, pairs := 0, matrix := none, sample_names := none }

/-- Modelled from the spec: the allocator `km_calloc`, declared in `kdm.h`,
which is not among the sources.  The block
`km_calloc(n, sizeof(cell_t), &km_onerr_print_exit)` returns has `n` slots,
each the zero of the mode; a failing allocation is fatal and ends the process,
which is not modelled. -/
def km_calloc (n : Nat) : Option (List cell_t) := some (List.replicate n cell_t.zero)

/-- The statement `mat->matrix[iii].x += res.x` of `do_pairwise`, with `x` the
field of the mode: the new content of the slot. -/
def cell_add (mode : cell_mode_t) (slot res : cell_t) : cell_t :=
  match mode with
  | .U64 => cell_t.ofU (add_u64 slot.u res.u)
  | .I64 => cell_t.ofI (add_i64 slot.i res.i)

/-- The body of the inner loop of `do_pairwise` on the loop state `(iii, *mat->matrix)`:
evaluate `(*calc)(cells[aaa], cells[bbb], mode)`, add it to `mat->matrix[iii]`
and increment `iii`.  (`iii` has just indexed an allocated slot, so `iii++`
does not wrap.) -/
def pairwise_body (calc_fn : cell_t → cell_t → cell_mode_t → Option cell_t)
    (mode : cell_mode_t) (cells : List cell_t)
    (st : Nat × Option (List cell_t)) (aaa bbb : Nat) :
    Option (Nat × Option (List cell_t)) := do
  let l ← cells[aaa]?
  let r ← cells[bbb]?
  let res ← calc_fn l r mode
  let m ← st.2
  let slot ← m[st.1]?
  some (st.1 + 1, some (m.set st.1 (cell_add mode slot res)))

/-- Function `do_pairwise` of `dist.c`: `for (aaa = 0; aaa < count; aaa++)
for (bbb = aaa + 1; bbb < count; bbb++)` around `pairwise_body`, with `iii`
starting at 0.  Returns the accumulator with the updated block. -/
def do_pairwise (mat : dist_mat_t) (cells : List cell_t) (count : Nat)
    (mode : cell_mode_t) (calc_fn : cell_t → cell_t → cell_mode_t → Option cell_t) :
    Option dist_mat_t := do
  let st ← (List.range count).foldlM
    (fun st aaa =>
      (List.range' (aaa + 1) (count - (aaa + 1))).foldlM
        (fun st bbb => pairwise_body calc_fn mode cells st aaa bbb) st)
    (0, mat.matrix)
  some { mat with matrix := st.2 }

/-- The two loops of `do_pairwise` with the final value of the local `iii`
kept: the state `(iii, *mat->matrix)` when the loops are left.  Every pass
through the body makes one write, at `mat->matrix[iii]`, and one `iii++`, so
the final `iii` is the number of writes of the call. -/
def do_pairwise_run (mat : dist_mat_t) (cells : List cell_t) (count : Nat)
    (mode : cell_mode_t) (calc_fn : cell_t → cell_t → cell_mode_t → Option cell_t) :
    Option (Nat × Option (List cell_t)) :=
  (List.range count).foldlM
    (fun st aaa =>
      (List.range' (aaa + 1) (count - (aaa + 1))).foldlM
        (fun st bbb => pairwise_body calc_fn mode cells st aaa bbb) st)
    (0, mat.matrix)

/-- The statement `if (mat->samples == 0) mat->samples = count;` of the row handlers. -/
def set_samples (mat : dist_mat_t) (count : Nat) : dist_mat_t :=
  if mat.samples = 0 then { mat with samples := count } else mat

/-- The statement `if (mat->pairs == 0) mat->pairs = (count * (count + 1)) / 2;`
of the row handlers, in `size_t` arithmetic. -/
def set_pairs (mat : dist_mat_t) (count : Nat) : dist_mat_t :=
  if mat.pairs = 0 then { mat with pairs := (count * ((count + 1) % W64)) % W64 / 2 }
  else mat

/-- The statement `if (mat->matrix == NULL) mat->matrix = km_calloc(mat->pairs, ...);`
of `dm_manhattan` and `dm_manhattan_binary`. -/
def alloc_matrix (mat : dist_mat_t) : dist_mat_t :=
  if mat.matrix = none then { mat with matrix := km_calloc mat.pairs } else mat

/-- The loop `for (iii = 0; iii < mat->pairs; iii++) mat->matrix[iii].d = 0.0l`
of `dm_canberra`, run right after the allocation: every slot is set to zero. -/
def zero_fill (pairs : Nat) (m : List cell_t) : Option (List cell_t) :=
  (List.range pairs).foldlM
    (fun m iii => if iii < m.length then some (m.set iii cell_t.zero) else none) m

/-- The allocation of `dm_canberra`: as `alloc_matrix`, followed inside the
`if` by the zeroing loop. -/
def alloc_matrix_zeroed (mat : dist_mat_t) : Option dist_mat_t :=
  if mat.matrix = none then do
    let m ← km_calloc mat.pairs
    let m ← zero_fill mat.pairs m
    some { mat with matrix := some m }
  else some mat

/-- The three guarded initialisations at the head of `dm_manhattan` and
`dm_manhattan_binary`, in their order. -/
def dm_setup (mat : dist_mat_t) (count : Nat) : dist_mat_t :=
  alloc_matrix (set_pairs (set_samples mat count) count)

/-- Row handler `dm_canberra` of `dist.c`; `tab->mode` and `tab->data` are the
arguments `mode` and `mat` (so `assert(mat)` holds), the unused `line` is left
out, and the result is the new `tab->data`. -/
def dm_canberra (mode : cell_mode_t) (mat : dist_mat_t) (cells : List cell_t)
    (count : Nat) : Option dist_mat_t := do
  let mat ← alloc_matrix_zeroed (set_pairs (set_samples mat count) count)
  do_pairwise mat cells count mode calc_canberra

/-- Row handler `dm_manhattan` of `dist.c`. -/
def dm_manhattan (mode : cell_mode_t) (mat : dist_mat_t) (cells : List cell_t)
    (count : Nat) : Option dist_mat_t :=
  do_pairwise (dm_setup mat count) cells count mode
    (fun l r m => some (calc_manhattan l r m))

/-- Row handler `dm_manhattan_binary` of `dist.c`. -/
def dm_manhattan_binary (binary_cutoff : cell_t) (mode : cell_mode_t) (mat : dist_mat_t)
    (cells : List cell_t) (count : Nat) : Option dist_mat_t :=
  do_pairwise (dm_setup mat count) cells count mode
    (fun l r m => some (calc_manhattan_binary binary_cutoff l r m))

/-- Modelled from the spec: the row source `iter_table`, declared in `ktable.h`,
which is not among the sources.  It yields the data rows in order, and for
each row calls `row_fn(tab, line, cells, count)` with `count` the number of
cells of the row. -/
def observe_rows (row_fn : dist_mat_t → List cell_t → Nat → Option dist_mat_t)
    (mat : dist_mat_t) (rows : List (List cell_t)) : Option dist_mat_t :=
  rows.foldlM (fun m row => row_fn m row row.length) mat

/-! ## Rendering -/

/-- One tab-terminated field written by `print_dist_mat`. -/
inductive out_tok where
  /-- The placeholder `.` -/
  | dot
  /-- A sample name, format `%s`. -/
  | name (s : String)
  /-- The constant `0.0l`, format `%Lf`. -/
  | zero
  /-- The field `d` of a slot of the block, format `%Lf`. -/
  | slot (c : cell_t)
deriving DecidableEq

/-- The body of the column loop of `print_dist_mat` for row `rrr`, on the state
`(iii, fields written so far on this line)`. -/
def print_cell (mat : dist_mat_t) (rrr : Nat) (st : Nat × List out_tok) (ccc : Nat) :
    Option (Nat × List out_tok) :=
  if rrr = ccc then some (st.1, st.2 ++ [out_tok.zero])
  else if ccc < rrr + 1 then some (st.1, st.2 ++ [out_tok.dot])
  else do
    let m ← mat.matrix
    let c ← m[st.1]?
    some (st.1 + 1, st.2 ++ [out_tok.slot c])

/-- The heading line written when `rrr == 0` and sample names exist: the
placeholder, then `sample_names[ccc]` for every column. -/
def print_heading (mat : dist_mat_t) (rrr : Nat) : Option (List (List out_tok)) :=
  if rrr = 0 then
    match mat.sample_names with
    | some names => do
      let line ← (List.range mat.samples).foldlM
        (fun (line : List out_tok) ccc => do
          let s ← names[ccc]?
          some (line ++ [out_tok.name s]))
        [out_tok.dot]
      some [line]
    | none => some []
  else some []

/-- The row label written before the cells of row `rrr` when sample names exist. -/
def print_label (mat : dist_mat_t) (rrr : Nat) : Option (List out_tok) :=
  match mat.sample_names with
  | some names => (names[rrr]?).map (fun s => [out_tok.name s])
  | none => some []

/-- Function `print_dist_mat` of `dist.c` (with `tab->data == mat`, as in
`calc_dist_matrix_of_table`): the lines written, each the list of its fields. -/
def print_dist_mat (mat : dist_mat_t) : Option (List (List out_tok)) := do
  let st ← (List.range mat.samples).foldlM
    (fun (st : Nat × List (List out_tok)) rrr => do
      let heading ← print_heading mat rrr
      let label ← print_label mat rrr
      let row ← (List.range mat.samples).foldlM (print_cell mat rrr) (st.1, label)
      some (row.1, st.2 ++ heading ++ [row.2]))
    (0, [])
  some st.2

/-! ## Specification vocabulary -/

/-- The flat index of the pair `(a, b)`, `a < b < k`, in the condensed matrix:
`a*k - a*(a+1)/2 + (b - a - 1)`. -/
def idx (k a b : Nat) : Nat := a * k - a * (a + 1) / 2 + (b - a - 1)

/-- The pairs `(aaa, bbb)` in the order of the two loop headers of `do_pairwise`:
`aaa` from 0 up to `count - 1`, and for each `aaa`, `bbb` from `aaa + 1` up to
`count - 1`. -/
def visit_order (count : Nat) : List (Nat × Nat) :=
  (List.range count).flatMap
    (fun aaa => (List.range' (aaa + 1) (count - (aaa + 1))).map (fun bbb => (aaa, bbb)))

/-- The number a cell stands for in a mode: the field `u` or the field `i`. -/
def cell_t.val (mode : cell_mode_t) (c : cell_t) : Int :=
  match mode with
  | .U64 => (c.u : Int)
  | .I64 => c.i

/-- The value `calc_canberra` returns (it always returns, `calc_canberra_eq`). -/
def canberra_value (left right : cell_t) (mode : cell_mode_t) : cell_t :=
  match mode with
  | .U64 =>
    if KM_ABS_SUM_u64 left.u right.u = 0 then cell_t.zero
    else cell_t.ofU (KM_ABS_DIFF_u64 left.u right.u / KM_ABS_SUM_u64 left.u right.u)
  | .I64 =>
    if KM_ABS_SUM_i64 left.i right.i = 0 then cell_t.zero
    else cell_t.ofI (Int.tdiv (KM_ABS_DIFF_i64 left.i right.i) (KM_ABS_SUM_i64 left.i right.i))

/-- After the rows have been observed through `row_fn` on a fresh accumulator,
the slot of every pair `a < b < k` holds, modulo `2^64`, the sum over the rows
of `f row[a] row[b]`; and when there is a single row, the slot is exactly that
row's contribution. -/
def accumulates (mode : cell_mode_t)
    (row_fn : dist_mat_t → List cell_t → Nat → Option dist_mat_t)
    (f : cell_t → cell_t → cell_mode_t → cell_t) (rows : List (List cell_t)) (k : Nat) : Prop :=
  ∃ m B, observe_rows row_fn dist_mat_t.fresh rows = some m ∧ m.matrix = some B ∧
    ∀ a b, a < b → b < k →
      (∃ c, B[idx k a b]? = some c ∧
        c.val mode % (W64 : Int) =
          (rows.map (fun row =>
            (f (row.getD a cell_t.zero) (row.getD b cell_t.zero) mode).val mode)).sum
            % (W64 : Int)) ∧
      (∀ row, rows = [row] →
        B[idx k a b]? = some (f (row.getD a cell_t.zero) (row.getD b cell_t.zero) mode))

/-- The first row `row` sizes the block to `n` slots, and the block still has
`n` slots after the further rows `rest`. -/
def length_fixed (row_fn : dist_mat_t → List cell_t → Nat → Option dist_mat_t)
    (row : List cell_t) (rest : List (List cell_t)) (n : Nat) : Prop :=
  ∃ m1 B1 m2 B2, row_fn dist_mat_t.fresh row row.length = some m1 ∧ m1.matrix = some B1 ∧
    B1.length = n ∧ observe_rows row_fn m1 rest = some m2 ∧ m2.matrix = some B2 ∧
    B2.length = n

/-- The field of data row `r`, data column `c` of the rendered grid, per the
specification: zero on the diagonal, the placeholder below it, and above it
the slot of the block at the flat index of the pair `(r, c)`. -/
def cell_spec (k : Nat) (B : List cell_t) (r c : Nat) : out_tok :=
  if r = c then out_tok.zero
  else if c < r then out_tok.dot
  else out_tok.slot (B.getD (idx k r c) cell_t.zero)

/-- The heading line per the specification: present when there are sample
names, the placeholder followed by the `k` names. -/
def heading_spec (k : Nat) (names : Option (List String)) : List (List out_tok) :=
  match names with
  | none => []
  | some ns => [out_tok.dot :: (List.range k).map (fun c => out_tok.name (ns.getD c ""))]

/-- The label leading line `r` per the specification: present when there are
sample names. -/
def label_spec (names : Option (List String)) (r : Nat) : List out_tok :=
  match names with
  | none => []
  | some ns => [out_tok.name (ns.getD r "")]

/-- The rendered grid per the specification: one line per sample, preceded by
the heading line and each led by its label; nothing for zero samples. -/
def render_spec (k : Nat) (B : List cell_t) (names : Option (List String)) :
    List (List out_tok) :=
  if k = 0 then []
  else heading_spec k names ++
    (List.range k).map (fun r => label_spec names r ++ (List.range k).map (cell_spec k B r))

/-- The field at data row `r`, data column `c` of a list of written lines: with
sample names, line 0 is the heading and field 0 of every line is its label. -/
def data_cell (mat : dist_mat_t) (lines : List (List out_tok)) (r c : Nat) : Option out_tok :=
  match mat.sample_names with
  | none => (lines[r]?).bind (fun fields => fields[c]?)
  | some _ => (lines[r + 1]?).bind (fun fields => fields[c + 1]?)

/-- The accumulator is sized for rows of width `k`: what the first row of
width `k` leaves in `samples`, `pairs` and the length of the block. -/
def sized (k : Nat) (m : dist_mat_t) : Prop :=
  m.samples = k ∧ m.pairs = k * (k + 1) / 2 ∧
    ∃ B, m.matrix = some B ∧ B.length = k * (k + 1) / 2

/-- The handler `row_fn` takes a row `cells` of width `w` on the accumulator
`m` without rejecting it: the call returns, `samples`, `pairs` and the length
of the block stay, the slot `idx w a b` of every pair `a < b < w` of the row
receives `f cells[a] cells[b]`, and every slot from `w*(w-1)/2` on is unchanged. -/
def accepts_row (mode : cell_mode_t)
    (row_fn : dist_mat_t → List cell_t → Nat → Option dist_mat_t)
    (f : cell_t → cell_t → cell_mode_t → cell_t) (m : dist_mat_t) (cells : List cell_t) :
    Prop :=
  ∃ B B', m.matrix = some B ∧
    row_fn m cells cells.length = some { m with matrix := some B' } ∧
    B'.length = B.length ∧
    (∀ a b, a < b → b < cells.length → ∃ x, B[idx cells.length a b]? = some x ∧
      B'[idx cells.length a b]? = some (cell_add mode x
        (f (cells.getD a cell_t.zero) (cells.getD b cell_t.zero) mode))) ∧
    (∀ j, cells.length * (cells.length - 1) / 2 ≤ j → B'[j]? = B[j]?)

/-- The conversion of an `int64_t` to `size_t` that the usual arithmetic
conversions apply to `threshold.i` in `passes < threshold.i`. -/
def to_u64 (z : Int) : Nat := (z % (W64 : Int)).toNat

/-- The `while` loop of `ft_num_nonzero` in one mode, on the state
`(iii, passes)`: `while ((iii < count) && (passes < threshold))
{ if (cells[iii++] > 0) passes++; }`, with `positive` the comparison of the
mode.  The first argument bounds the number of iterations; the loop has no
result when the bound is used up. -/
def ft_loop (positive : cell_t → Bool) (threshold : Nat) (cells : List cell_t) (count : Nat) :
    Nat → Nat → Nat → Option (Nat × Nat)
  | 0, iii, passes =>
    if iii < count ∧ passes < threshold then none else some (iii, passes)
  | fuel + 1, iii, passes =>
    if iii < count ∧ passes < threshold then do
      let c ← cells[iii]?
      ft_loop positive threshold cells count fuel (iii + 1)
        (if positive c then passes + 1 else passes)
    else some (iii, passes)

/-- Row handler `ft_num_nonzero` of `filter_table.c`, integer modes, with
`((ft_t *)tab->data)->threshold` the argument `threshold`: the texts written to
`tab->outfp`.  The loop runs at most `count` times. -/
def ft_num_nonzero (mode : cell_mode_t) (threshold : cell_t) (line : String)
    (cells : List cell_t) (count : Nat) : Option (List String) :=
  match mode with
  | .U64 => do
    let st ← ft_loop (fun c => decide (c.u > 0)) threshold.u cells count count 0 0
    some (if st.2 ≥ threshold.u then [line] else [])
  | .I64 => do
    let st ← ft_loop (fun c => decide (c.i > 0)) (to_u64 threshold.i) cells count count 0 0
    some (if st.2 ≥ to_u64 threshold.i then [line] else [])

/-- The decision of the nonzero-count filter per the specification: the line is
written once when the number of cells above zero in the whole row reaches the
threshold, and not at all otherwise. -/
def nonzero_filter_spec (positive : cell_t → Bool) (threshold : Int) (line : String)
    (cells : List cell_t) : List String :=
  if threshold ≤ ((cells.countP positive : Nat) : Int) then [line] else []

/-- The tokens that successive calls of the C library function `strtok_r` on a
string return before they return `NULL`: the maximal runs of characters that
are not in the delimiter string, in order. -/
def strtok_tokens (delims : List Char) (s : List Char) : List (List Char) :=
  (List.splitOnP (fun c => decide (c ∈ delims)) s).filter (fun t => decide (t ≠ []))

/-- The line feed character. -/
def newline : Char := Char.ofNat 10

/-- The statements `tok_cpy = strdup(tok); nl = strchr(tok_cpy, 10);
if (nl != NULL) nl[0] = 0;` of `process_header`: the copy ends at its first
line feed. -/
def strip_newline (tok : List Char) : String :=
  String.mk (tok.takeWhile (fun c => decide (c ≠ newline)))

/-- The local state of `process_header`: the counter `col`, the capacity
`n_alloced` of the array `samples`, and the entries `samples[0 .. sample)`
stored so far (`sample` is their number). -/
structure header_state where
  col : Nat
  n_alloced : Nat
  samples : List String
deriving DecidableEq

/-- The body of the `do ... while` loop of `process_header` up to the call of
`strtok_r` that ends it, with `tok` the current token (`none` is `NULL`).  A
column below `skipcol` is passed over; otherwise the array is grown by
`kmroundupz` when `sample + 1 >= n_alloced`, and the stripped copy of the token
is stored at `samples[sample]`.  Copying a `NULL` token, or storing beyond the
capacity, has no result.  `kmroundupz` is declared in `kdm.h`, which is not
among the sources, and is a parameter. -/
def header_body (kmroundupz : Nat → Nat) (skipcol : Nat) (st : header_state)
    (tok : Option (List Char)) : Option header_state :=
  if st.col < skipcol then some { st with col := st.col + 1 }
  else
    let n_alloced :=
      if st.samples.length + 1 ≥ st.n_alloced then kmroundupz st.n_alloced else st.n_alloced
    match tok with
    | none => none
    | some t =>
      if st.samples.length < n_alloced then
        some { col := st.col + 1, n_alloced := n_alloced,
               samples := st.samples ++ [strip_newline t] }
      else none

/-- The `do ... while (tok != NULL)` loop of `process_header`: `rest` are the
tokens `strtok_r` has yet to return, `tok` is the current one.  Every pass
through the body ends with one call of `strtok_r`, and the loop is left when
that call returns `NULL`. -/
def header_loop (kmroundupz : Nat → Nat) (skipcol : Nat) :
    List (List Char) → Option (List Char) → header_state → Option header_state
  | [], tok, st => header_body kmroundupz skipcol st tok
  | t :: rest, tok, st => do
    let st ← header_body kmroundupz skipcol st tok
    header_loop kmroundupz skipcol rest (some t) st

/-- Function `process_header` of `dist.c`, with `tab->sep`, `tab->skipcol` and
`tab->data` the arguments `sep`, `skipcol` and `mat`: the new `tab->data` (the
function returns 1).  The array starts with `1<<4` entries. -/
def process_header (kmroundupz : Nat → Nat) (sep : String) (skipcol : Nat) (mat : dist_mat_t)
    (line : String) : Option dist_mat_t := do
  let toks := strtok_tokens sep.toList line.toList
  let st ← header_loop kmroundupz skipcol toks.tail toks.head?
    { col := 0, n_alloced := 16, samples := [] }
  some { mat with sample_names := some st.samples }

/-- The header handler called on each skipped line in turn, as `iter_table`
calls `tab->skipped_row_fn`. -/
def observe_headers (kmroundupz : Nat → Nat) (sep : String) (skipcol : Nat) (mat : dist_mat_t)
    (lines : List String) : Option dist_mat_t :=
  lines.foldlM (process_header kmroundupz sep skipcol) mat

/-- The sample names of a header line per the specification: the tokens after
the first `skipcol`, in order, each without its line feed. -/
def header_names_spec (sep : String) (skipcol : Nat) (line : String) : List String :=
  ((strtok_tokens sep.toList line.toList).drop skipcol).map strip_newline

/-- A `FILE *` as `parse_args` sets it up: one of the two standard streams, or
a file opened by name. -/
inductive stream_t where
  | stdin
  | stdout
  | file (path : String)
deriving DecidableEq

/-- The row handler a `tab->row_fn` points to. -/
inductive row_fn_t where
  | dm_manhattan
  | dm_manhattan_binary
  | dm_canberra
  | ft_median
  | ft_num_nonzero
deriving DecidableEq

/-- Modelled from the spec: the structure `table_t`, declared in `ktable.h`,
which is not among the sources; these are the fields `parse_args` assigns.  A
`NULL` pointer is `none`, and `mode_D64` tells whether `tab->mode = D64` has
been executed. -/
structure table_t where
  fname : Option String
  outfname : Option String
  sep : Option String
  fp : Option stream_t
  outfp : Option stream_t
  skipcol : Int
  skiprow : Int
  row_fn : Option row_fn_t
  mode_D64 : Bool
deriving DecidableEq

/-- The table `calloc(1, sizeof(*tab))` returns in `main`. -/
def table_t.fresh : table_t :=
  { fname := none, outfname := none, sep := none, fp := none, outfp := none,
    skipcol := 0, skiprow := 0, row_fn := none, mode_D64 := false }

/-- The state of `parse_args`: the local `haveflags` (it stays below 64, so the
`unsigned char` never wraps), the table, and the text last handed to `strtold`
for `binary_cutoff.d` (`dist.c`) or to `strtocellt` for the threshold
(`filter_table.c`). -/
structure parse_state where
  haveflags : Nat
  tab : table_t
  number_arg : Option String
deriving DecidableEq

/-- How `parse_args` ends: `exit(status)` from inside it, or `return code`. -/
inductive parse_result where
  | exited (status : Nat)
  | returned (code : Nat) (st : parse_state)
deriving DecidableEq

/-- The test `strncmp(s1, s2, n) == 0` of the C library on strings without
embedded NUL: the first `n` characters agree. -/
def strncmp_eq (s1 s2 : String) (n : Nat) : Bool :=
  decide (s1.toList.take n = s2.toList.take n)

/-- One pass through the `switch` of `parse_args` in `dist.c`, for the option
character `c` that `getopt` returned and its `optarg`; `none` is the
`exit(EXIT_SUCCESS)` of `-h`.  A character without a `case` changes nothing. -/
def dist_option (atol : String → Int) (st : parse_state) (c : Char) (optarg : String) :
    Option parse_state :=
  if c = 'm' then
    some { st with haveflags := st.haveflags ||| 1,
                   tab := { st.tab with row_fn := some row_fn_t.dm_manhattan, mode_D64 := true } }
  else if c = 'M' then
    some { haveflags := st.haveflags ||| 1,
           tab := { st.tab with row_fn := some row_fn_t.dm_manhattan_binary, mode_D64 := true },
           number_arg := some optarg }
  else if c = 'C' then
    some { st with haveflags := st.haveflags ||| 1,
                   tab := { st.tab with mode_D64 := true, row_fn := some row_fn_t.dm_canberra } }
  else if c = 'o' then
    some { st with haveflags := st.haveflags ||| 2,
                   tab := { st.tab with outfname := some optarg } }
  else if c = 'i' then
    some { st with haveflags := st.haveflags ||| 4,
                   tab := { st.tab with fname := some optarg } }
  else if c = 'c' then
    some { st with haveflags := st.haveflags ||| 8,
                   tab := { st.tab with skipcol := atol optarg } }
  else if c = 'r' then
    some { st with haveflags := st.haveflags ||| 16,
                   tab := { st.tab with skiprow := atol optarg } }
  else if c = 's' then
    some { st with haveflags := st.haveflags ||| 32,
                   tab := { st.tab with sep := some optarg } }
  else if c = 'h' then none
  else some st

/-- One pass through the `switch` of `parse_args` in `filter_table.c`. -/
def filter_option (atol : String → Int) (st : parse_state) (c : Char) (optarg : String) :
    Option parse_state :=
  if c = 'm' then
    some { haveflags := st.haveflags ||| 1,
           tab := { st.tab with row_fn := some row_fn_t.ft_median },
           number_arg := some optarg }
  else if c = 'z' then
    some { haveflags := st.haveflags ||| 1,
           tab := { st.tab with row_fn := some row_fn_t.ft_num_nonzero },
           number_arg := some optarg }
  else if c = 'o' then
    some { st with haveflags := st.haveflags ||| 2,
                   tab := { st.tab with outfname := some optarg } }
  else if c = 'i' then
    some { st with haveflags := st.haveflags ||| 4,
                   tab := { st.tab with fname := some optarg } }
  else if c = 'c' then
    some { st with haveflags := st.haveflags ||| 8,
                   tab := { st.tab with skipcol := atol optarg } }
  else if c = 'r' then
    some { st with haveflags := st.haveflags ||| 16,
                   tab := { st.tab with skiprow := atol optarg } }
  else if c = 's' then
    some { st with haveflags := st.haveflags ||| 32,
                   tab := { st.tab with sep := some optarg } }
  else if c = 'h' then none
  else some st

/-- The condition `(!(haveflags & bit)) || name == NULL ||
strncmp(name, "-", 1) == 0` that selects a standard stream. -/
def wants_std (haveflags bit : Nat) (name : Option String) : Bool :=
  (haveflags &&& bit == 0) ||
    match name with
    | none => true
    | some f => strncmp_eq f "-" 1

/-- The block `Setup input fp` of both `parse_args`; `can_read path` tells
whether `fopen(path, "r")` succeeds, and `fdopen` on standard input is taken
to succeed. -/
def setup_input (can_read : String → Bool) (st : parse_state) : parse_state :=
  if wants_std st.haveflags 4 st.tab.fname then
    { st with haveflags := st.haveflags ||| 4,
              tab := { st.tab with fp := some stream_t.stdin, fname := some "stdin" } }
  else
    { st with tab := { st.tab with
        fp := st.tab.fname.bind
          (fun f => if can_read f then some (stream_t.file f) else none) } }

/-- The block `Setup output fp` of both `parse_args`; `can_write path` tells
whether `fopen(path, "w")` succeeds. -/
def setup_output (can_write : String → Bool) (st : parse_state) : parse_state :=
  if wants_std st.haveflags 2 st.tab.outfname then
    { st with haveflags := st.haveflags ||| 2,
              tab := { st.tab with outfp := some stream_t.stdout, outfname := some "stdout" } }
  else
    { st with tab := { st.tab with
        outfp := st.tab.outfname.bind
          (fun f => if can_write f then some (stream_t.file f) else none) } }

/-- The part of both `parse_args` after the option loop: the default
separator, the two streams, and the test `(haveflags & 7) != 7`. -/
def parse_finish (can_read can_write : String → Bool) (st : parse_state) : parse_result :=
  let st := if st.tab.sep = none then { st with tab := { st.tab with sep := some "\t" } } else st
  let st := setup_input can_read st
  if st.tab.fp = none then parse_result.returned 0 st
  else
    let st := setup_output can_write st
    if st.tab.outfp = none then parse_result.returned 0 st
    else if st.haveflags &&& 7 ≠ 7 then parse_result.returned 0 st
    else parse_result.returned 1 st

/-- Function `parse_args` of `dist.c`.  The list `opts` holds what the
successive calls of `getopt` return, each option character with its `optarg`
(empty for an option without argument); `atol` is the C library function. -/
def parse_args (atol : String → Int) (can_read can_write : String → Bool)
    (opts : List (Char × String)) : parse_result :=
  match opts.foldlM (fun st o => dist_option atol st o.1 o.2)
      { haveflags := 0, tab := table_t.fresh, number_arg := none } with
  | none => parse_result.exited 0
  | some st => parse_finish can_read can_write st

/-- Function `parse_args` of `filter_table.c`. -/
def filter_parse_args (atol : String → Int) (can_read can_write : String → Bool)
    (opts : List (Char × String)) : parse_result :=
  match opts.foldlM (fun st o => filter_option atol st o.1 o.2)
      { haveflags := 0, tab := table_t.fresh, number_arg := none } with
  | none => parse_result.exited 0
  | some st => parse_finish can_read can_write st

/-- No access to the block is out of bounds when the rows, all of width `k`,
are observed through `row_fn` (with metric `f`) on a fresh accumulator and the
result is rendered.  The run returns an accumulator whose block has `pairs`
slots, `pairs` being `k*(k+1)/2`, at least `k*(k-1)/2`.  For every row and
every accumulator with a block of `pairs` slots, the loops of `do_pairwise`
end with the local `iii` at `k*(k-1)/2`, the number of writes of the call;
they are the loop body run over the pairs in visit order; and after the first
`n` of these passes, for each `n <= k*(k-1)/2`, the running index is `n`, so
that the writes go to the indices `0 .. k*(k-1)/2 - 1`, each below `pairs`.
And `print_dist_mat` writes the same lines when the block is cut down to its
first `k*(k-1)/2` slots: it reads no slot at or beyond that index. -/
def accesses_in_bounds (mode : cell_mode_t)
    (row_fn : dist_mat_t → List cell_t → Nat → Option dist_mat_t)
    (f : cell_t → cell_t → cell_mode_t → cell_t) (rows : List (List cell_t)) (k : Nat) : Prop :=
  ∃ m B lines, observe_rows row_fn dist_mat_t.fresh rows = some m ∧ m.matrix = some B ∧
    m.samples = k ∧ m.pairs = k * (k + 1) / 2 ∧ B.length = m.pairs ∧
    k * (k - 1) / 2 ≤ m.pairs ∧
    (∀ row ∈ rows, ∀ (m0 : dist_mat_t) (B0 : List cell_t), m0.matrix = some B0 →
      B0.length = m.pairs →
      (∃ B1, do_pairwise_run m0 row row.length mode (fun l r md => some (f l r md)) =
        some (k * (k - 1) / 2, some B1)) ∧
      do_pairwise_run m0 row row.length mode (fun l r md => some (f l r md)) =
        (visit_order k).foldlM
          (fun st p => pairwise_body (fun l r md => some (f l r md)) mode row st p.1 p.2)
          (0, some B0) ∧
      ∀ n, n ≤ k * (k - 1) / 2 →
        ∃ Bn, ((visit_order k).take n).foldlM
          (fun st p => pairwise_body (fun l r md => some (f l r md)) mode row st p.1 p.2)
          (0, some B0) = some (n, some Bn)) ∧
    print_dist_mat m = some lines ∧
    print_dist_mat { m with matrix := some (B.take (k * (k - 1) / 2)) } = some lines

/-- The handler that a metric flag of `tableDist` names: `-m`, `-M`, `-C`; no
handler for any other option character. -/
def metric_of (c : Char) : Option row_fn_t :=
  if c = 'm' then some row_fn_t.dm_manhattan
  else if c = 'M' then some row_fn_t.dm_manhattan_binary
  else if c = 'C' then some row_fn_t.dm_canberra
  else none

/-- The handler of the last metric flag in a sequence of options, and `none`
when the sequence has no metric flag: the one of a later option if there is
one, else the one of the option at hand. -/
def last_metric : List (Char × String) → Option row_fn_t
  | [] => none
  | o :: rest =>
    match last_metric rest with
    | some f => some f
    | none => metric_of o.1

/-! ## Cell arithmetic lemmas and the metric functions -/

/-- Two cells with the same bits are equal. -/
theorem cell_t.ext_bits {a b : cell_t} (h : a.bits = b.bits) : a = b := by
  cases a; cases b; simp only [cell_t.mk.injEq]; exact h

/-- The field `i` is at least `INT64_MIN`. -/
theorem cell_t.i_lower (c : cell_t) : -(H64 : Int) ≤ c.i := by
  have := c.lt
  unfold cell_t.i
  simp only [W64, H64] at *
  split <;> omega

/-- The field `i` is at most `INT64_MAX`. -/
theorem cell_t.i_upper (c : cell_t) : c.i < (H64 : Int) := by
  have := c.lt
  unfold cell_t.i
  simp only [W64, H64] at *
  split <;> omega

/-- Reading back a stored signed value gives the value wrapped. -/
theorem cell_t.i_ofI (z : Int) : (cell_t.ofI z).i = wrap_i64 z := by
  unfold cell_t.i cell_t.ofI wrap_i64
  simp only [W64, H64]
  split <;> omega

/-- Reading back a stored unsigned value gives the value reduced. -/
theorem cell_t.u_ofU (n : Nat) : (cell_t.ofU n).u = n % W64 := rfl

/-- The bits of a stored unsigned value. -/
theorem cell_t.bits_ofU (n : Nat) : (cell_t.ofU n).bits = n % W64 := rfl

/-- Wrapping leaves a value of the `int64_t` range unchanged. -/
theorem wrap_i64_id (z : Int) (h1 : -(H64 : Int) ≤ z) (h2 : z < (H64 : Int)) : wrap_i64 z = z := by
  unfold wrap_i64
  simp only [W64, H64] at *
  omega

/-- C4. In the signed mode, when the difference `left - right` is representable
as an `int64_t` and is not `INT64_MIN`, `calc_manhattan` returns the
mathematical absolute difference `|left - right|`, which is non-negative. -/
theorem calc_manhattan_I64_abs (left right : cell_t)
    (hlo : -(H64 : Int) < left.i - right.i) (hhi : left.i - right.i < (H64 : Int)) :
    (calc_manhattan left right .I64).i = |left.i - right.i| ∧
      0 ≤ (calc_manhattan left right .I64).i := by
  have key : (calc_manhattan left right .I64).i = |left.i - right.i| := by
    simp only [calc_manhattan, cell_t.i_ofI, KM_ABS_DIFF_i64, abs_i64, sub_i64, neg_i64]
    generalize left.i - right.i = d at hlo hhi
    rw [wrap_i64_id d (le_of_lt hlo) hhi]
    by_cases hd : d > 0
    · rw [if_pos hd, abs_of_pos hd]
      exact wrap_i64_id _ (le_of_lt hlo) hhi
    · rw [if_neg hd, abs_of_nonpos (by omega)]
      rw [wrap_i64_id (-d) (by omega) (by omega)]
      exact wrap_i64_id _ (by omega) (by omega)
  exact ⟨key, by rw [key]; exact abs_nonneg _⟩

/-- C4 at `left = 1`, `right = 3`. -/
theorem calc_manhattan_I64_abs_witness :
    (calc_manhattan (cell_t.ofI 1) (cell_t.ofI 3) .I64).i = |(cell_t.ofI 1).i - (cell_t.ofI 3).i| ∧
      0 ≤ (calc_manhattan (cell_t.ofI 1) (cell_t.ofI 3) .I64).i :=
  calc_manhattan_I64_abs (cell_t.ofI 1) (cell_t.ofI 3) (by decide) (by decide)

/-- The signed division of `calc_canberra` never is `INT64_MIN / -1`. -/
theorem canberra_no_overflow (left right : cell_t) :
    ¬ (KM_ABS_DIFF_i64 left.i right.i = -(H64 : Int) ∧
      KM_ABS_SUM_i64 left.i right.i = -1) := by
  have l1 := left.i_lower
  have l2 := left.i_upper
  have r1 := right.i_lower
  have r2 := right.i_upper
  generalize left.i = l at *
  generalize right.i = r at *
  unfold KM_ABS_DIFF_i64 KM_ABS_SUM_i64 abs_i64 sub_i64 add_i64 neg_i64 wrap_i64
  simp only [W64, H64] at *
  intro ⟨h1, h2⟩
  split at h1 <;> split at h2 <;> split at h2 <;> omega

/-- In both integer modes `calc_canberra` returns, and returns `canberra_value`. -/
theorem calc_canberra_eq (left right : cell_t) (mode : cell_mode_t) :
    calc_canberra left right mode = some (canberra_value left right mode) := by
  cases mode
  · unfold calc_canberra canberra_value KM_NO_DIVZERO_U64 div_u64
    by_cases h : KM_ABS_SUM_u64 left.u right.u = 0
    · simp only [h, if_true, Option.map_some']
      rfl
    · simp only [h, if_false, Option.map_some']
  · unfold calc_canberra canberra_value KM_NO_DIVZERO_I64 div_i64
    by_cases h : KM_ABS_SUM_i64 left.i right.i = 0
    · simp only [h, if_true, Option.map_some']
      rfl
    · simp only [h, canberra_no_overflow left right, if_false, Option.map_some']

/-- C6. In both integer modes `calc_canberra` always has a result (no division
traps): the mode's zero when the computed denominator `|left| + |right|` is
zero, and otherwise the computed numerator `|left - right|` divided by that
denominator with the integer division of the mode. -/
theorem calc_canberra_never_divides_by_zero (left right : cell_t) :
    calc_canberra left right .U64 =
        some (if KM_ABS_SUM_u64 left.u right.u = 0 then cell_t.zero
          else cell_t.ofU (KM_ABS_DIFF_u64 left.u right.u / KM_ABS_SUM_u64 left.u right.u)) ∧
      calc_canberra left right .I64 =
        some (if KM_ABS_SUM_i64 left.i right.i = 0 then cell_t.zero
          else cell_t.ofI
            (Int.tdiv (KM_ABS_DIFF_i64 left.i right.i) (KM_ABS_SUM_i64 left.i right.i))) :=
  ⟨calc_canberra_eq left right .U64, calc_canberra_eq left right .I64⟩

/-- The macro `KM_BOOL_DIFF` is 0 on equal truth values and 1 otherwise. -/
theorem KM_BOOL_DIFF_eq (a b : Bool) : KM_BOOL_DIFF a b = if a = b then 0 else 1 := by
  cases a <;> cases b <;> rfl

/-- C7. For every cutoff `T`, in the unsigned mode (fields `u`) and in the signed
mode (fields `i`), `calc_manhattan_binary` returns 0 when `left` and `right`
are both `> T` or both `<= T`, and 1 otherwise; in every integer mode the
result is the cell 0 or the cell 1 and nothing else. -/
theorem calc_manhattan_binary_zero_one (T left right : cell_t) :
    ((left.u > T.u ∧ right.u > T.u) ∨ (left.u ≤ T.u ∧ right.u ≤ T.u) →
        (calc_manhattan_binary T left right .U64).u = 0) ∧
      (¬ ((left.u > T.u ∧ right.u > T.u) ∨ (left.u ≤ T.u ∧ right.u ≤ T.u)) →
        (calc_manhattan_binary T left right .U64).u = 1) ∧
      ((left.i > T.i ∧ right.i > T.i) ∨ (left.i ≤ T.i ∧ right.i ≤ T.i) →
        (calc_manhattan_binary T left right .I64).i = 0) ∧
      (¬ ((left.i > T.i ∧ right.i > T.i) ∨ (left.i ≤ T.i ∧ right.i ≤ T.i)) →
        (calc_manhattan_binary T left right .I64).i = 1) ∧
      ∀ mode, calc_manhattan_binary T left right mode = cell_t.ofU 0 ∨
        calc_manhattan_binary T left right mode = cell_t.ofU 1 := by
  refine ⟨?_, ?_, ?_, ?_, ?_⟩
  · intro h
    simp only [calc_manhattan_binary, KM_BOOL_DIFF_eq]
    rw [if_pos (by simp only [decide_eq_decide]; omega)]
    rfl
  · intro h
    simp only [calc_manhattan_binary, KM_BOOL_DIFF_eq]
    rw [if_neg (by simp only [decide_eq_decide]; omega)]
    rfl
  · intro h
    simp only [calc_manhattan_binary, KM_BOOL_DIFF_eq]
    rw [if_pos (by simp only [decide_eq_decide]; omega)]
    rfl
  · intro h
    simp only [calc_manhattan_binary, KM_BOOL_DIFF_eq]
    rw [if_neg (by simp only [decide_eq_decide]; omega)]
    rfl
  · intro mode
    cases mode <;> simp only [calc_manhattan_binary, KM_BOOL_DIFF_eq] <;> split
    · left; rfl
    · right; rfl
    · left; rfl
    · right; rfl

/-- C9. In both integer modes `calc_canberra x x` is the mode's zero, for every
cell `x`: also for `x = 0` (zero denominator) and when `|x| + |x|` wraps. -/
theorem calc_canberra_self (x : cell_t) (mode : cell_mode_t) :
    calc_canberra x x mode = some cell_t.zero := by
  cases mode
  · rw [calc_canberra_eq]
    simp only [canberra_value]
    have h0 : KM_ABS_DIFF_u64 x.u x.u = 0 := by
      have := x.lt
      unfold KM_ABS_DIFF_u64 abs_u64 neg_u64 sub_u64 cell_t.u
      simp only [W64] at *
      split <;> omega
    rw [h0, Nat.zero_div]
    split <;> rfl
  · rw [calc_canberra_eq]
    simp only [canberra_value]
    have h0 : KM_ABS_DIFF_i64 x.i x.i = 0 := by
      unfold KM_ABS_DIFF_i64 abs_i64 neg_i64 sub_i64 wrap_i64
      simp only [W64, H64] at *
      split <;> omega
    rw [h0, Int.zero_tdiv]
    split <;> rfl

/-! ## The pairwise loop -/

/-- Folding over a `flatMap` is the nested fold. -/
theorem foldlM_flatMap_option {α β σ : Type} (g : α → List β) (f : σ → β → Option σ)
    (l : List α) (init : σ) :
    (l.flatMap g).foldlM f init = l.foldlM (fun s a => (g a).foldlM f s) init := by
  induction l generalizing init with
  | nil => rfl
  | cons a l ih =>
    rw [List.flatMap_cons, List.foldlM_append, List.foldlM_cons]
    cases h : (g a).foldlM f init with
    | none => rfl
    | some s => exact ih s

/-- The nested loops of `do_pairwise` run the body over `visit_order`. -/
theorem nested_eq_visit_order {σ : Type} (body : σ → Nat → Nat → Option σ) (count : Nat)
    (init : σ) :
    (List.range count).foldlM
        (fun st aaa =>
          (List.range' (aaa + 1) (count - (aaa + 1))).foldlM (fun st bbb => body st aaa bbb) st)
        init =
      (visit_order count).foldlM (fun st p => body st p.1 p.2) init := by
  unfold visit_order
  rw [foldlM_flatMap_option]
  congr 1
  funext st aaa
  rw [List.foldlM_map]

/-- Twice the triangular number. -/
theorem two_mul_tri (a : Nat) : 2 * (a * (a + 1) / 2) = a * (a + 1) :=
  Nat.two_mul_div_two_of_even (Nat.even_mul_succ_self a)

/-- The triangular numbers step by `a + 1`. -/
theorem tri_succ (a : Nat) : (a + 1) * (a + 2) / 2 = a * (a + 1) / 2 + (a + 1) := by
  have h1 := two_mul_tri a
  have h2 := two_mul_tri (a + 1)
  have h3 : (a + 1) * (a + 1 + 1) = a * (a + 1) + 2 * (a + 1) := by ring
  have h4 : (a + 1) * (a + 2) = (a + 1) * (a + 1 + 1) := rfl
  omega

/-- The offset of row `a + 1` is the offset of row `a` plus the length of row `a`. -/
theorem idx_row_start (k a : Nat) (h : a < k) :
    a * k - a * (a + 1) / 2 + (k - (a + 1)) = (a + 1) * k - (a + 1) * (a + 2) / 2 := by
  have h1 := two_mul_tri a
  have h2 := tri_succ a
  have h3 : (a + 1) * k = a * k + k := by ring
  have h4 : a * (a + 1) = a * a + a := by ring
  have h5 : a * a + a ≤ a * k := by
    have : a + 1 ≤ k := h
    calc a * a + a = a * (a + 1) := by ring
      _ ≤ a * k := Nat.mul_le_mul_left a this
  omega


/-- The visit order unfolded. -/
theorem visit_order_eq (count : Nat) :
    visit_order count = (List.range count).flatMap
      (fun aaa => (List.range' (aaa + 1) (count - (aaa + 1))).map (fun bbb => (aaa, bbb))) := rfl

/-- The number of pairs visited before row `a`. -/
theorem visit_prefix_length (k a : Nat) (h : a ≤ k) :
    ((List.range a).flatMap
      (fun aaa => (List.range' (aaa + 1) (k - (aaa + 1))).map (fun bbb => (aaa, bbb)))).length =
      a * k - a * (a + 1) / 2 := by
  induction a with
  | zero => simp
  | succ a ih =>
    rw [List.range_succ, List.flatMap_append, List.length_append, ih (by omega),
      List.flatMap_singleton, List.length_map, List.length_range']
    exact idx_row_start k a h

/-- The number of unordered pairs, as the loops count them. -/
theorem pair_count_eq (k : Nat) : k * k - k * (k + 1) / 2 = k * (k - 1) / 2 := by
  cases k with
  | zero => rfl
  | succ n =>
    have h1 := two_mul_tri n
    have h2 := two_mul_tri (n + 1)
    have h3 : (n + 1) * (n + 1 + 1) = (n + 1) * (n + 1) + (n + 1) := by ring
    have h4 : (n + 1) * (n + 1 - 1) = n * (n + 1) := by
      rw [Nat.add_sub_cancel]; ring
    have h5 : (n + 1) * (n + 1) = n * (n + 1) + (n + 1) := by ring
    rw [h4]
    omega

/-- The loops of `do_pairwise` visit `k*(k-1)/2` pairs. -/
theorem visit_order_length (k : Nat) : (visit_order k).length = k * (k - 1) / 2 := by
  rw [visit_order_eq, visit_prefix_length k k (le_refl k), pair_count_eq]

/-- Every visited pair `(a, b)` has `a < b < k`. -/
theorem mem_visit_order (k a b : Nat) : (a, b) ∈ visit_order k ↔ a < b ∧ b < k := by
  rw [visit_order_eq, List.mem_flatMap]
  constructor
  · rintro ⟨x, hx, hm⟩
    rw [List.mem_map] at hm
    obtain ⟨y, hy, he⟩ := hm
    rw [List.mem_range'_1] at hy
    rw [List.mem_range] at hx
    simp only [Prod.mk.injEq] at he
    omega
  · rintro ⟨h1, h2⟩
    refine ⟨a, List.mem_range.mpr (by omega), ?_⟩
    rw [List.mem_map]
    exact ⟨b, List.mem_range'_1.mpr (by omega), rfl⟩

/-- The pair `(a, b)` is visited at position `idx k a b`. -/
theorem visit_order_getElem (k a b : Nat) (hab : a < b) (hb : b < k) :
    (visit_order k)[idx k a b]? = some (a, b) := by
  have hsplit : List.range k = List.range a ++ (a :: List.range' (a + 1) (k - (a + 1))) := by
    have h := List.range'_append 0 a (k - (a + 1) + 1) 1
    rw [Nat.zero_add, Nat.one_mul] at h
    rw [List.range_eq_range', List.range_eq_range', ← List.range'_succ, h]
    congr 1
    omega
  rw [visit_order_eq, hsplit, List.flatMap_append, List.flatMap_cons]
  unfold idx
  rw [List.getElem?_append_right (by rw [visit_prefix_length k a (by omega)]; omega),
    visit_prefix_length k a (by omega), Nat.add_sub_cancel_left,
    List.getElem?_append_left (by rw [List.length_map, List.length_range']; omega),
    List.getElem?_map, List.getElem?_range' _ _ (by omega)]
  simp only [Option.map_some', Prod.mk.injEq, true_and, Option.some.injEq]
  omega

/-- No pair is visited twice. -/
theorem visit_order_nodup (k : Nat) : (visit_order k).Nodup := by
  rw [visit_order_eq, List.nodup_flatMap]
  constructor
  · intro x _
    exact (List.nodup_range' _ _).map (fun b b' h => by simpa using h)
  · refine (List.pairwise_lt_range k).imp ?_
    intro a a' haa
    show List.Disjoint _ _
    rw [List.disjoint_left]
    intro p hp hp'
    rw [List.mem_map] at hp hp'
    obtain ⟨_, _, rfl⟩ := hp
    obtain ⟨_, _, he⟩ := hp'
    simp only [Prod.mk.injEq] at he
    omega

/-- The pair at position `j` of the visit order is the pair with flat index `j`. -/
theorem visit_order_getElem_iff (k j a b : Nat) :
    (visit_order k)[j]? = some (a, b) ↔ a < b ∧ b < k ∧ idx k a b = j := by
  constructor
  · intro h
    have hm := (mem_visit_order k a b).mp (List.getElem?_mem h)
    refine ⟨hm.1, hm.2, ?_⟩
    have h2 := visit_order_getElem k a b hm.1 hm.2
    have hlt : idx k a b < (visit_order k).length := by
      rw [List.getElem?_eq_some] at h2
      exact h2.1
    exact List.getElem?_inj hlt (visit_order_nodup k) (h2.trans h.symm)
  · rintro ⟨h1, h2, rfl⟩
    exact visit_order_getElem k a b h1 h2

/-- The flat index of a pair is below the number of pairs. -/
theorem idx_lt (k a b : Nat) (hab : a < b) (hb : b < k) : idx k a b < k * (k - 1) / 2 := by
  have h2 := visit_order_getElem k a b hab hb
  rw [List.getElem?_eq_some] at h2
  rw [← visit_order_length]
  exact h2.1

/-- One run of the loop body on an allocated block, within bounds. -/
theorem pairwise_body_some (calc_fn : cell_t → cell_t → cell_mode_t → Option cell_t)
    (mode : cell_mode_t) (cells B : List cell_t) (iii aaa bbb : Nat) (l r res slot : cell_t)
    (hl : cells[aaa]? = some l) (hr : cells[bbb]? = some r)
    (hres : calc_fn l r mode = some res) (hs : B[iii]? = some slot) :
    pairwise_body calc_fn mode cells (iii, some B) aaa bbb =
      some (iii + 1, some (B.set iii (cell_add mode slot res))) := by
  simp [pairwise_body, hl, hr, hres, hs]

/-- Running the loop body over a list `L` of pairs, from index `i0`: the index
advances by one per pair, slot `i0 + j` receives the contribution of the
`j`-th pair, and no other slot changes. -/
theorem fold_pairs (f : cell_t → cell_t → cell_mode_t → cell_t)
    (mode : cell_mode_t) (cells : List cell_t) :
    ∀ (L : List (Nat × Nat)) (i0 : Nat) (B : List cell_t),
      (∀ p ∈ L, p.1 < cells.length ∧ p.2 < cells.length) →
      i0 + L.length ≤ B.length →
      ∃ B', L.foldlM (fun st p =>
            pairwise_body (fun l r m => some (f l r m)) mode cells st p.1 p.2) (i0, some B) =
          some (i0 + L.length, some B') ∧
        B'.length = B.length ∧
        (∀ j p l r x, L[j]? = some p → cells[p.1]? = some l → cells[p.2]? = some r →
          B[i0 + j]? = some x → B'[i0 + j]? = some (cell_add mode x (f l r mode))) ∧
        (∀ j, j < i0 ∨ i0 + L.length ≤ j → B'[j]? = B[j]?) := by
  intro L
  induction L with
  | nil =>
    intro i0 B _ _
    exact ⟨B, rfl, rfl, fun j p l r x h => by simp at h, fun _ _ => rfl⟩
  | cons p L ih =>
    intro i0 B hc hlen
    have hp := hc p (List.mem_cons_self p L)
    rw [List.length_cons] at hlen
    obtain ⟨l, hl⟩ : ∃ l, cells[p.1]? = some l :=
      ⟨_, List.getElem?_eq_getElem hp.1⟩
    obtain ⟨r, hr⟩ : ∃ r, cells[p.2]? = some r :=
      ⟨_, List.getElem?_eq_getElem hp.2⟩
    obtain ⟨x, hx⟩ : ∃ x, B[i0]? = some x :=
      ⟨_, List.getElem?_eq_getElem (by omega)⟩
    obtain ⟨B', hfold, hlen', hin, hout⟩ :=
      ih (i0 + 1) (B.set i0 (cell_add mode x (f l r mode)))
        (fun q hq => hc q (List.mem_cons_of_mem p hq))
        (by rw [List.length_set]; omega)
    refine ⟨B', ?_, ?_, ?_, ?_⟩
    · rw [List.foldlM_cons,
        pairwise_body_some _ mode cells B i0 p.1 p.2 l r (f l r mode) x hl hr rfl hx]
      rw [List.length_cons, show i0 + (L.length + 1) = i0 + 1 + L.length by omega]
      exact hfold
    · rw [hlen', List.length_set]
    · intro j q l' r' x' hq hl' hr' hx'
      cases j with
      | zero =>
        simp only [List.getElem?_cons_zero, Option.some.injEq] at hq
        subst hq
        rw [hl] at hl'
        rw [hr] at hr'
        rw [Nat.add_zero] at hx' ⊢
        rw [hx] at hx'
        simp only [Option.some.injEq] at hl' hr' hx'
        subst hl' hr' hx'
        rw [hout i0 (Or.inl (by omega))]
        exact List.getElem?_set_self (by omega)
      | succ j =>
        rw [List.getElem?_cons_succ] at hq
        have e : i0 + (j + 1) = i0 + 1 + j := by omega
        rw [e] at hx' ⊢
        refine hin j q l' r' x' hq hl' hr' ?_
        rw [List.getElem?_set_ne (by omega)]
        exact hx'
    · intro j hj
      rw [List.length_cons] at hj
      rw [hout j (by omega), List.getElem?_set_ne (by omega)]


/-- In both modes the `+=` of `do_pairwise` adds the bit patterns modulo `2^64`. -/
theorem cell_add_bits (mode : cell_mode_t) (x y : cell_t) :
    (cell_add mode x y).bits = (x.bits + y.bits) % W64 := by
  have hx := x.lt
  have hy := y.lt
  cases mode
  · simp only [cell_add, cell_t.bits_ofU, add_u64, cell_t.u, Nat.mod_mod]
  · simp only [cell_add, cell_t.ofI, add_i64, wrap_i64, cell_t.i]
    simp only [W64, H64] at *
    split <;> split <;> omega

/-- The members of the visit order index the row. -/
theorem visit_order_bounds (cells : List cell_t) :
    ∀ p ∈ visit_order cells.length, p.1 < cells.length ∧ p.2 < cells.length := by
  intro p hp
  have := (mem_visit_order cells.length p.1 p.2).mp hp
  omega

/-- What one call of `do_pairwise` does to a block `B` with room for all pairs. -/
theorem do_pairwise_block (mode : cell_mode_t) (f : cell_t → cell_t → cell_mode_t → cell_t)
    (cells B : List cell_t) (mat : dist_mat_t) (hB : mat.matrix = some B)
    (hlen : cells.length * (cells.length - 1) / 2 ≤ B.length) :
    ∃ B', do_pairwise mat cells cells.length mode (fun l r m => some (f l r m)) =
          some { mat with matrix := some B' } ∧
        B'.length = B.length ∧
        (∀ a b l r x, a < b → b < cells.length → cells[a]? = some l → cells[b]? = some r →
          B[idx cells.length a b]? = some x →
          B'[idx cells.length a b]? = some (cell_add mode x (f l r mode))) ∧
        (∀ j, cells.length * (cells.length - 1) / 2 ≤ j → B'[j]? = B[j]?) := by
  obtain ⟨B', hfold, hlen', hin, hout⟩ :=
    fold_pairs f mode cells (visit_order cells.length) 0 B (visit_order_bounds cells)
      (by rw [visit_order_length]; omega)
  refine ⟨B', ?_, hlen', ?_, ?_⟩
  · unfold do_pairwise
    rw [hB, nested_eq_visit_order
      (pairwise_body (fun l r m => some (f l r m)) mode cells), hfold]
    rfl
  · intro a b l r x hab hb hl hr hx
    have h := hin (idx cells.length a b) (a, b) l r x
      (visit_order_getElem cells.length a b hab hb) hl hr
    rw [Nat.zero_add] at h
    exact h hx
  · intro j hj
    exact hout j (Or.inr (by rw [visit_order_length]; omega))

/-- C2. One call of `do_pairwise` on a row of `k` cells and a block `B` of at
least `k*(k-1)/2` slots, for any metric function `f` and either integer mode:
the call returns; slot `idx k a b` of every pair `a < b < k` becomes the old
slot plus `f row[a] row[b]`, added modulo `2^64`; every slot from index
`k*(k-1)/2` on is unchanged; the call is the loop body run over the pairs in
the order `a` ascending, `b` ascending from `a + 1`; the pair visited at
position `j` is the one with `idx = j`; and after the first `n` pairs the
running index `iii` is `n`. -/
theorem do_pairwise_adds_each_pair (mode : cell_mode_t)
    (f : cell_t → cell_t → cell_mode_t → cell_t) (cells B : List cell_t) (mat : dist_mat_t)
    (hB : mat.matrix = some B) (hlen : cells.length * (cells.length - 1) / 2 ≤ B.length) :
    ∃ B', do_pairwise mat cells cells.length mode (fun l r m => some (f l r m)) =
          some { mat with matrix := some B' } ∧
        B'.length = B.length ∧
        (∀ a b l r x, a < b → b < cells.length → cells[a]? = some l → cells[b]? = some r →
          B[idx cells.length a b]? = some x →
          B'[idx cells.length a b]? = some (cell_add mode x (f l r mode)) ∧
            (cell_add mode x (f l r mode)).bits = (x.bits + (f l r mode).bits) % W64) ∧
        (∀ j, cells.length * (cells.length - 1) / 2 ≤ j → B'[j]? = B[j]?) ∧
        do_pairwise mat cells cells.length mode (fun l r m => some (f l r m)) =
          ((visit_order cells.length).foldlM
            (fun st p => pairwise_body (fun l r m => some (f l r m)) mode cells st p.1 p.2)
            (0, mat.matrix)).map (fun st => { mat with matrix := st.2 }) ∧
        (∀ j a b, (visit_order cells.length)[j]? = some (a, b) ↔
          a < b ∧ b < cells.length ∧ idx cells.length a b = j) ∧
        (∀ n, n ≤ cells.length * (cells.length - 1) / 2 →
          ∃ Bn, ((visit_order cells.length).take n).foldlM
            (fun st p => pairwise_body (fun l r m => some (f l r m)) mode cells st p.1 p.2)
            (0, mat.matrix) = some (n, some Bn)) := by
  obtain ⟨B', hrun, hlen', hin, hout⟩ := do_pairwise_block mode f cells B mat hB hlen
  refine ⟨B', hrun, hlen', ?_, hout, ?_, ?_, ?_⟩
  · intro a b l r x hab hb hl hr hx
    exact ⟨hin a b l r x hab hb hl hr hx, cell_add_bits mode x (f l r mode)⟩
  · unfold do_pairwise
    rw [nested_eq_visit_order (pairwise_body (fun l r m => some (f l r m)) mode cells)]
    cases (visit_order cells.length).foldlM
      (fun st p => pairwise_body (fun l r m => some (f l r m)) mode cells st p.1 p.2)
      (0, mat.matrix) <;> rfl
  · intro j a b
    exact visit_order_getElem_iff cells.length j a b
  · intro n hn
    have hn' : ((visit_order cells.length).take n).length = n := by
      rw [List.length_take, visit_order_length]; omega
    obtain ⟨Bn, hfold, _⟩ :=
      fold_pairs f mode cells ((visit_order cells.length).take n) 0 B
        (fun p hp => visit_order_bounds cells p (List.mem_of_mem_take hp))
        (by rw [hn']; omega)
    rw [hn', Nat.zero_add] at hfold
    rw [hB]
    exact ⟨Bn, hfold⟩

/-- C2 on the row `(1, 3, 4)`, a zeroed block of three slots and `calc_manhattan`. -/
theorem do_pairwise_adds_each_pair_witness :
    ∃ B', do_pairwise
          { samples := 3, pairs := 6,
            matrix := some [cell_t.zero, cell_t.zero, cell_t.zero], sample_names := none }
          [cell_t.ofU 1, cell_t.ofU 3, cell_t.ofU 4] 3 .U64
          (fun l r m => some (calc_manhattan l r m)) =
        some { samples := 3, pairs := 6, matrix := some B', sample_names := none } ∧
      B'.length = 3 := by
  obtain ⟨B', h1, h2, _⟩ := do_pairwise_adds_each_pair .U64 calc_manhattan
    [cell_t.ofU 1, cell_t.ofU 3, cell_t.ofU 4] [cell_t.zero, cell_t.zero, cell_t.zero]
    { samples := 3, pairs := 6,
      matrix := some [cell_t.zero, cell_t.zero, cell_t.zero], sample_names := none }
    rfl (by decide)
  exact ⟨B', h1, h2⟩

/-! ## The row handlers -/

/-- For a row narrower than `2^32` cells the `size_t` product of the handlers
does not wrap. -/
theorem pairs_no_wrap (k : Nat) (hk : k < 2 ^ 32) :
    (k * ((k + 1) % W64)) % W64 / 2 = k * (k + 1) / 2 := by
  have h1 : k + 1 < W64 := by unfold W64; omega
  have h2 : k * (k + 1) < W64 := by
    have : k * (k + 1) ≤ 4294967295 * 4294967296 :=
      Nat.mul_le_mul (by omega) (by omega)
    unfold W64; omega
  rw [Nat.mod_eq_of_lt h1, Nat.mod_eq_of_lt h2]

/-- The strict upper triangle fits into the allocated block. -/
theorem tri_le_pairs (k : Nat) : k * (k - 1) / 2 ≤ k * (k + 1) / 2 :=
  Nat.div_le_div_right (Nat.mul_le_mul_left k (by omega))

/-- The setup of a fresh accumulator for a row of `k` cells. -/
theorem dm_setup_fresh (k : Nat) (hk : k < 2 ^ 32) :
    dm_setup dist_mat_t.fresh k =
      { samples := k, pairs := k * (k + 1) / 2,
        matrix := some (List.replicate (k * (k + 1) / 2) cell_t.zero),
        sample_names := none } := by
  simp only [dm_setup, set_samples, set_pairs, alloc_matrix, dist_mat_t.fresh, km_calloc,
    pairs_no_wrap k hk, if_true]

/-- The setup leaves a sized accumulator as it is. -/
theorem dm_setup_sized (k : Nat) (m : dist_mat_t) (hk : k < 2 ^ 32) (hm : sized k m) :
    dm_setup m k = m := by
  obtain ⟨h1, h2, B, h3, _⟩ := hm
  cases m with
  | mk samples pairs matrix names =>
    simp only at h1 h2 h3
    subst h1 h2 h3
    unfold dm_setup set_samples set_pairs alloc_matrix
    simp only [pairs_no_wrap _ hk]
    split <;> split <;> simp_all

/-- A fresh accumulator set up for `k` is sized for `k`. -/
theorem sized_setup_fresh (k : Nat) (hk : k < 2 ^ 32) : sized k (dm_setup dist_mat_t.fresh k) := by
  rw [dm_setup_fresh k hk]
  exact ⟨rfl, rfl, _, rfl, List.length_replicate _ _⟩

/-- The zeroing loop of `dm_canberra` leaves a zeroed block as it is. -/
theorem zero_fill_replicate (n : Nat) :
    zero_fill n (List.replicate n cell_t.zero) = some (List.replicate n cell_t.zero) := by
  unfold zero_fill
  have key : ∀ l : List Nat, (∀ i ∈ l, i < n) →
      l.foldlM (fun m iii => if iii < m.length then some (m.set iii cell_t.zero) else none)
        (List.replicate n cell_t.zero) = some (List.replicate n cell_t.zero) := by
    intro l
    induction l with
    | nil => intro _; rfl
    | cons i l ih =>
      intro h
      have hi := h i (List.mem_cons_self i l)
      rw [List.foldlM_cons, if_pos (by rw [List.length_replicate]; exact hi)]
      have hset : (List.replicate n cell_t.zero).set i cell_t.zero =
          List.replicate n cell_t.zero := by
        apply List.ext_getElem?
        intro j
        rw [List.getElem?_set]
        split
        · next hij =>
          subst hij
          simp [List.getElem?_replicate, hi]
        · rfl
      rw [hset]
      exact ih (fun j hj => h j (List.mem_cons_of_mem i hj))
  exact key (List.range n) (fun i hi => List.mem_range.mp hi)

/-- The allocation of `dm_canberra` yields the block of `alloc_matrix`. -/
theorem alloc_matrix_zeroed_eq (x : dist_mat_t) :
    alloc_matrix_zeroed x = some (alloc_matrix x) := by
  unfold alloc_matrix_zeroed alloc_matrix
  split
  · simp only [km_calloc]
    show (zero_fill x.pairs (List.replicate x.pairs cell_t.zero)).bind _ = _
    rw [zero_fill_replicate]
    rfl
  · rfl

/-- The handler `dm_canberra` is the shared setup followed by `do_pairwise`. -/
theorem dm_canberra_eq (mode : cell_mode_t) (m : dist_mat_t) (cells : List cell_t)
    (count : Nat) :
    dm_canberra mode m cells count =
      do_pairwise (dm_setup m count) cells count mode
        (fun l r md => some (canberra_value l r md)) := by
  have hc : calc_canberra = fun l r md => some (canberra_value l r md) := by
    funext l r md
    exact calc_canberra_eq l r md
  unfold dm_canberra dm_setup
  rw [hc, alloc_matrix_zeroed_eq]
  rfl


/-- A cell's number is congruent to its bit pattern modulo `2^64`. -/
theorem cell_t.val_emod (mode : cell_mode_t) (c : cell_t) :
    c.val mode % (W64 : Int) = (c.bits : Int) := by
  have h := c.lt
  cases mode
  · simp only [cell_t.val, cell_t.u]
    simp only [W64] at *
    omega
  · simp only [cell_t.val, cell_t.i]
    simp only [W64, H64] at *
    split <;> omega

/-- The sum of bit patterns modulo `2^64` is the sum of the numbers modulo `2^64`. -/
theorem sum_bits_emod {α : Type} (mode : cell_mode_t) (g : α → cell_t) (l : List α) :
    (((l.map (fun x => (g x).bits)).sum % W64 : Nat) : Int) =
      (l.map (fun x => (g x).val mode)).sum % (W64 : Int) := by
  induction l with
  | nil => rfl
  | cons x l ih =>
    have hx := cell_t.val_emod mode (g x)
    simp only [List.map_cons, List.sum_cons]
    push_cast at ih ⊢
    simp only [W64] at *
    omega

/-- One row of width `k` observed on an accumulator sized for `k`. -/
theorem step_sized (mode : cell_mode_t) (f : cell_t → cell_t → cell_mode_t → cell_t)
    (k : Nat) (hk : k < 2 ^ 32) (m : dist_mat_t) (hm : sized k m)
    (cells : List cell_t) (hc : cells.length = k) :
    ∃ B B', m.matrix = some B ∧
      do_pairwise (dm_setup m cells.length) cells cells.length mode
          (fun l r md => some (f l r md)) = some { m with matrix := some B' } ∧
      sized k { m with matrix := some B' } ∧
      (∀ a b, a < b → b < k → ∃ x, B[idx k a b]? = some x ∧
        B'[idx k a b]? = some (cell_add mode x
          (f (cells.getD a cell_t.zero) (cells.getD b cell_t.zero) mode))) ∧
      (∀ j, k * (k - 1) / 2 ≤ j → B'[j]? = B[j]?) := by
  obtain ⟨h1, h2, B, h3, h4⟩ := hm
  subst hc
  rw [dm_setup_sized _ m hk ⟨h1, h2, B, h3, h4⟩]
  obtain ⟨B', hrun, hlen, hin, hout⟩ := do_pairwise_block mode f cells B m h3
    (by rw [h4]; exact tri_le_pairs _)
  refine ⟨B, B', h3, hrun, ⟨h1, h2, B', rfl, by rw [hlen, h4]⟩, ?_, hout⟩
  intro a b hab hb
  have hidx : idx cells.length a b < B.length := by
    have := idx_lt cells.length a b hab hb
    have := tri_le_pairs cells.length
    omega
  refine ⟨B[idx cells.length a b], List.getElem?_eq_getElem hidx, ?_⟩
  refine hin a b _ _ _ hab hb ?_ ?_ (List.getElem?_eq_getElem hidx)
  · rw [List.getD_eq_getElem?_getD, List.getElem?_eq_getElem (by omega)]; rfl
  · rw [List.getD_eq_getElem?_getD, List.getElem?_eq_getElem hb]; rfl

/-- Rows of width `k` observed in turn on an accumulator sized for `k`. -/
theorem rows_sized (mode : cell_mode_t) (f : cell_t → cell_t → cell_mode_t → cell_t)
    (k : Nat) (hk : k < 2 ^ 32) :
    ∀ (rows : List (List cell_t)) (m : dist_mat_t), sized k m →
      (∀ row ∈ rows, row.length = k) →
      ∃ B B', m.matrix = some B ∧
        rows.foldlM (fun m row => do_pairwise (dm_setup m row.length) row row.length mode
          (fun l r md => some (f l r md))) m = some { m with matrix := some B' } ∧
        B'.length = k * (k + 1) / 2 ∧
        ∀ a b, a < b → b < k → ∃ x c, B[idx k a b]? = some x ∧ B'[idx k a b]? = some c ∧
          c.bits = (x.bits + (rows.map (fun row =>
            (f (row.getD a cell_t.zero) (row.getD b cell_t.zero) mode).bits)).sum) % W64 := by
  intro rows
  induction rows with
  | nil =>
    intro m hm _
    obtain ⟨h1, h2, B, h3, h4⟩ := hm
    refine ⟨B, B, h3, ?_, h4, ?_⟩
    · cases m
      simp only at h3
      subst h3
      rfl
    · intro a b hab hb
      have hidx : idx k a b < B.length := by
        have := idx_lt k a b hab hb
        have := tri_le_pairs k
        omega
      refine ⟨B[idx k a b], B[idx k a b], List.getElem?_eq_getElem hidx,
        List.getElem?_eq_getElem hidx, ?_⟩
      have := (B[idx k a b]).lt
      simp only [List.map_nil, List.sum_nil, Nat.add_zero]
      exact (Nat.mod_eq_of_lt this).symm
  | cons row rows ih =>
    intro m hm hw
    obtain ⟨B, B1, hB, hrun, hs1, hin, _⟩ :=
      step_sized mode f k hk m hm row (hw row (List.mem_cons_self row rows))
    obtain ⟨B1', B2, hB1, hrun2, hlen2, hin2⟩ :=
      ih { m with matrix := some B1 } hs1 (fun r hr => hw r (List.mem_cons_of_mem row hr))
    simp only [Option.some.injEq] at hB1
    subst hB1
    refine ⟨B, B2, hB, ?_, hlen2, ?_⟩
    · rw [List.foldlM_cons, hrun]
      exact hrun2
    · intro a b hab hb
      obtain ⟨x, hx, hx1⟩ := hin a b hab hb
      obtain ⟨x1, c, hx1', hc, hbits⟩ := hin2 a b hab hb
      rw [hx1] at hx1'
      simp only [Option.some.injEq] at hx1'
      subst hx1'
      refine ⟨x, c, hx, hc, ?_⟩
      rw [hbits, cell_add_bits]
      simp only [List.map_cons, List.sum_cons]
      rw [Nat.mod_add_mod, Nat.add_assoc]


/-- Rows of width `k` observed in turn on a fresh accumulator, by a handler
that is the shared setup followed by `do_pairwise` with the metric `f`. -/
theorem rows_fresh (mode : cell_mode_t) (f : cell_t → cell_t → cell_mode_t → cell_t)
    (k : Nat) (hk : k < 2 ^ 32) (row : List cell_t) (rest : List (List cell_t))
    (hw : ∀ r ∈ row :: rest, r.length = k) :
    ∃ B', (row :: rest).foldlM (fun m r => do_pairwise (dm_setup m r.length) r r.length mode
          (fun l r md => some (f l r md))) dist_mat_t.fresh =
        some { dm_setup dist_mat_t.fresh k with matrix := some B' } ∧
      B'.length = k * (k + 1) / 2 ∧
      ∀ a b, a < b → b < k → ∃ c, B'[idx k a b]? = some c ∧
        c.bits = ((row :: rest).map (fun r =>
          (f (r.getD a cell_t.zero) (r.getD b cell_t.zero) mode).bits)).sum % W64 := by
  have hs := sized_setup_fresh k hk
  obtain ⟨B, B', hB, hrun, hlen, hin⟩ :=
    rows_sized mode f k hk (row :: rest) (dm_setup dist_mat_t.fresh k) hs hw
  have hrow : row.length = k := hw row (List.mem_cons_self row rest)
  refine ⟨B', ?_, hlen, ?_⟩
  · rw [← hrun, List.foldlM_cons, List.foldlM_cons, hrow,
      dm_setup_sized k (dm_setup dist_mat_t.fresh k) hk hs]
  · intro a b hab hb
    obtain ⟨x, c, hx, hc, hbits⟩ := hin a b hab hb
    refine ⟨c, hc, ?_⟩
    rw [dm_setup_fresh k hk] at hB
    simp only [Option.some.injEq] at hB
    subst hB
    rw [List.getElem?_replicate] at hx
    split at hx
    · simp only [Option.some.injEq] at hx
      subst hx
      rw [hbits]
      show (0 + _) % W64 = _
      rw [Nat.zero_add]
    · exact absurd hx (by simp)

/-- Accumulation by a handler that is the shared setup followed by
`do_pairwise` with the metric `f`. -/
theorem accumulates_of_handler (mode : cell_mode_t)
    (row_fn : dist_mat_t → List cell_t → Nat → Option dist_mat_t)
    (f : cell_t → cell_t → cell_mode_t → cell_t)
    (hfn : ∀ m cells count, row_fn m cells count =
      do_pairwise (dm_setup m count) cells count mode (fun l r md => some (f l r md)))
    (k : Nat) (hk : k < 2 ^ 32) (rows : List (List cell_t)) (hne : rows ≠ [])
    (hw : ∀ r ∈ rows, r.length = k) :
    accumulates mode row_fn f rows k := by
  cases rows with
  | nil => exact absurd rfl hne
  | cons row rest =>
    obtain ⟨B', hrun, _, hin⟩ := rows_fresh mode f k hk row rest hw
    refine ⟨{ dm_setup dist_mat_t.fresh k with matrix := some B' }, B', ?_, rfl, ?_⟩
    · unfold observe_rows
      rw [← hrun]
      congr 1
      funext m r
      exact hfn m r r.length
    · intro a b hab hb
      obtain ⟨c, hc, hbits⟩ := hin a b hab hb
      refine ⟨⟨c, hc, ?_⟩, ?_⟩
      · rw [cell_t.val_emod, hbits]
        exact sum_bits_emod mode
          (fun r => f (r.getD a cell_t.zero) (r.getD b cell_t.zero) mode) (row :: rest)
      · intro r hr
        simp only [List.cons.injEq] at hr
        obtain ⟨hr1, hr2⟩ := hr
        subst hr1 hr2
        rw [hc]
        congr 1
        apply cell_t.ext_bits
        rw [hbits]
        simp only [List.map_cons, List.map_nil, List.sum_cons, List.sum_nil, Nat.add_zero]
        exact Nat.mod_eq_of_lt (cell_t.lt _)

/-- The block length under a handler that is the shared setup followed by
`do_pairwise` with the metric `f`. -/
theorem length_fixed_of_handler (mode : cell_mode_t)
    (row_fn : dist_mat_t → List cell_t → Nat → Option dist_mat_t)
    (f : cell_t → cell_t → cell_mode_t → cell_t)
    (hfn : ∀ m cells count, row_fn m cells count =
      do_pairwise (dm_setup m count) cells count mode (fun l r md => some (f l r md)))
    (k : Nat) (hk : k < 2 ^ 32) (row : List cell_t) (hrow : row.length = k)
    (rest : List (List cell_t)) (hrest : ∀ r ∈ rest, r.length = k) :
    length_fixed row_fn row rest (k * (k + 1) / 2) := by
  have hfn' : (fun m (r : List cell_t) => row_fn m r r.length) =
      (fun m r => do_pairwise (dm_setup m r.length) r r.length mode
        (fun l r md => some (f l r md))) := by
    funext m r
    exact hfn m r r.length
  obtain ⟨B1, hrun1, hlen1, _⟩ := rows_fresh mode f k hk row []
    (fun r hr => by
      simp only [List.mem_singleton] at hr
      rw [hr]; exact hrow)
  have hs0 := sized_setup_fresh k hk
  have hs1 : sized k { dm_setup dist_mat_t.fresh k with matrix := some B1 } :=
    ⟨hs0.1, hs0.2.1, B1, rfl, hlen1⟩
  obtain ⟨B1', B2, hB1, hrun2, hlen2, _⟩ := rows_sized mode f k hk rest _ hs1 hrest
  refine ⟨{ dm_setup dist_mat_t.fresh k with matrix := some B1 }, B1,
    { dm_setup dist_mat_t.fresh k with matrix := some B2 }, B2,
    ?_, rfl, hlen1, ?_, rfl, hlen2⟩
  · rw [hfn]
    rw [List.foldlM_cons] at hrun1
    cases h : do_pairwise (dm_setup dist_mat_t.fresh row.length) row row.length mode
        (fun l r md => some (f l r md)) with
    | none => rw [h] at hrun1; exact absurd hrun1 (by simp)
    | some v =>
      rw [h] at hrun1
      exact hrun1
  · unfold observe_rows
    rw [hfn']
    exact hrun2


/-- The handler `dm_manhattan` is the shared setup followed by `do_pairwise`. -/
theorem dm_manhattan_eq (mode : cell_mode_t) (m : dist_mat_t) (cells : List cell_t)
    (count : Nat) :
    dm_manhattan mode m cells count =
      do_pairwise (dm_setup m count) cells count mode
        (fun l r md => some (calc_manhattan l r md)) := rfl

/-- The handler `dm_manhattan_binary` is the shared setup followed by `do_pairwise`. -/
theorem dm_manhattan_binary_eq (T : cell_t) (mode : cell_mode_t) (m : dist_mat_t)
    (cells : List cell_t) (count : Nat) :
    dm_manhattan_binary T mode m cells count =
      do_pairwise (dm_setup m count) cells count mode
        (fun l r md => some (calc_manhattan_binary T l r md)) := rfl

/-- C1, amended. For each of the three handlers and each integer mode, after `N >= 1`
rows of one width `k` (below `2^32`, so that the `size_t` product of the
handlers does not wrap) have been observed on a fresh accumulator, the slot of
every pair `a < b < k` holds, modulo `2^64`, the sum over the rows of the
metric of `row[a]` and `row[b]`, and after a single row exactly that row's
contribution; the block the first row allocates is all zeros.  The metric of
`dm_canberra` is `canberra_value`, the value `calc_canberra` returns. -/
theorem rows_accumulate_pair_sums (mode : cell_mode_t) (T : cell_t)
    (rows : List (List cell_t)) (k : Nat) (hk : k < 2 ^ 32) (hne : rows ≠ [])
    (hw : ∀ r ∈ rows, r.length = k) :
    accumulates mode (dm_canberra mode) canberra_value rows k ∧
      (∀ l r, calc_canberra l r mode = some (canberra_value l r mode)) ∧
      accumulates mode (dm_manhattan mode) calc_manhattan rows k ∧
      accumulates mode (dm_manhattan_binary T mode) (calc_manhattan_binary T) rows k ∧
      (dm_setup dist_mat_t.fresh k).matrix =
        some (List.replicate (k * (k + 1) / 2) cell_t.zero) ∧
      alloc_matrix_zeroed (set_pairs (set_samples dist_mat_t.fresh k) k) =
        some (dm_setup dist_mat_t.fresh k) :=
  ⟨accumulates_of_handler mode _ _ (dm_canberra_eq mode) k hk rows hne hw,
    fun l r => calc_canberra_eq l r mode,
    accumulates_of_handler mode _ _ (dm_manhattan_eq mode) k hk rows hne hw,
    accumulates_of_handler mode _ _ (dm_manhattan_binary_eq T mode) k hk rows hne hw,
    by rw [dm_setup_fresh k hk],
    alloc_matrix_zeroed_eq _⟩

/-- C1, amended, on the two rows `(1, 3, 4)` and `(2, 2, 9)` in the signed mode. -/
theorem rows_accumulate_pair_sums_witness :
    accumulates .I64 (dm_manhattan .I64) calc_manhattan
      [[cell_t.ofI 1, cell_t.ofI 3, cell_t.ofI 4], [cell_t.ofI 2, cell_t.ofI 2, cell_t.ofI 9]]
      3 :=
  (rows_accumulate_pair_sums .I64 (cell_t.ofI 1)
    [[cell_t.ofI 1, cell_t.ofI 3, cell_t.ofI 4], [cell_t.ofI 2, cell_t.ofI 2, cell_t.ofI 9]]
    3 (by decide) (by decide) (by decide)).2.2.1

/-- C3, amended. After the first row of width `k` (below `2^32`) has been
observed by any of the three handlers, the block has exactly `k*(k+1)/2`
slots, and it still has exactly that many after any further rows of width `k`. -/
theorem buffer_length_fixed (mode : cell_mode_t) (T : cell_t) (k : Nat) (hk : k < 2 ^ 32)
    (row : List cell_t) (hrow : row.length = k) (rest : List (List cell_t))
    (hrest : ∀ r ∈ rest, r.length = k) :
    length_fixed (dm_canberra mode) row rest (k * (k + 1) / 2) ∧
      length_fixed (dm_manhattan mode) row rest (k * (k + 1) / 2) ∧
      length_fixed (dm_manhattan_binary T mode) row rest (k * (k + 1) / 2) :=
  ⟨length_fixed_of_handler mode _ _ (dm_canberra_eq mode) k hk row hrow rest hrest,
    length_fixed_of_handler mode _ _ (dm_manhattan_eq mode) k hk row hrow rest hrest,
    length_fixed_of_handler mode _ _ (dm_manhattan_binary_eq T mode) k hk row hrow rest hrest⟩

/-- C3, amended, on a first row `(1, 3)` and one further row `(5, 1)`. -/
theorem buffer_length_fixed_witness :
    length_fixed (dm_canberra .U64) [cell_t.ofU 1, cell_t.ofU 3]
      [[cell_t.ofU 5, cell_t.ofU 1]] (2 * (2 + 1) / 2) :=
  (buffer_length_fixed .U64 (cell_t.ofU 1) 2 (by decide) [cell_t.ofU 1, cell_t.ofU 3] rfl
    [[cell_t.ofU 5, cell_t.ofU 1]] (by decide)).1

/-! ## Rendering the matrix -/

/-- One more iteration of a counting loop. -/
theorem foldlM_range_succ {σ : Type} (f : σ → Nat → Option σ) (init s : σ) (n : Nat)
    (h : (List.range n).foldlM f init = some s) :
    (List.range (n + 1)).foldlM f init = f s n := by
  rw [List.range_succ, List.foldlM_append, h]
  show (f s n).bind (fun s' => some s') = f s n
  cases f s n <;> rfl

/-- Reading a list inside its bounds, with a default. -/
theorem getD_of_lt {α : Type} (l : List α) (i : Nat) (d : α) (h : i < l.length) :
    l[i]? = some (l.getD i d) := by
  rw [List.getD_eq_getElem?_getD, List.getElem?_eq_getElem h]
  rfl

/-- The heading loop of `print_dist_mat` after `n` columns. -/
theorem heading_fold (names : List String) (n : Nat) (hn : n ≤ names.length) :
    (List.range n).foldlM
        (fun (line : List out_tok) ccc => do
          let s ← names[ccc]?
          some (line ++ [out_tok.name s]))
        [out_tok.dot] =
      some (out_tok.dot :: (List.range n).map (fun c => out_tok.name (names.getD c ""))) := by
  induction n with
  | zero => rfl
  | succ n ih =>
    rw [foldlM_range_succ _ _ _ n (ih (by omega)), getD_of_lt names n "" (by omega),
      List.range_succ, List.map_append]
    rfl

/-- The diagonal field. -/
theorem print_cell_diag (mat : dist_mat_t) (r i : Nat) (acc : List out_tok) :
    print_cell mat r (i, acc) r = some (i, acc ++ [out_tok.zero]) := by
  unfold print_cell
  rw [if_pos rfl]

/-- A field below the diagonal. -/
theorem print_cell_low (mat : dist_mat_t) (r c i : Nat) (acc : List out_tok) (h : c < r) :
    print_cell mat r (i, acc) c = some (i, acc ++ [out_tok.dot]) := by
  unfold print_cell
  rw [if_neg (by omega), if_pos (by omega)]

/-- A field above the diagonal. -/
theorem print_cell_up (mat : dist_mat_t) (B : List cell_t) (hB : mat.matrix = some B)
    (r c i : Nat) (acc : List out_tok) (x : cell_t) (h : r < c) (hx : B[i]? = some x) :
    print_cell mat r (i, acc) c = some (i + 1, acc ++ [out_tok.slot x]) := by
  unfold print_cell
  rw [if_neg (by omega), if_neg (by omega), hB]
  show (B[i]?).bind _ = _
  rw [hx]
  rfl

/-- The column loop of `print_dist_mat` for row `r`, after `n` columns, when
the row starts at the flat index of its first pair. -/
theorem row_fold (mat : dist_mat_t) (B : List cell_t) (hB : mat.matrix = some B)
    (k r : Nat) (hr : r < k) (hlen : k * (k - 1) / 2 ≤ B.length) (acc : List out_tok)
    (n : Nat) (hn : n ≤ k) :
    (List.range n).foldlM (print_cell mat r) (r * k - r * (r + 1) / 2, acc) =
      some (r * k - r * (r + 1) / 2 + (n - (r + 1)),
        acc ++ (List.range n).map (cell_spec k B r)) := by
  induction n with
  | zero => simp
  | succ n ih =>
    rw [foldlM_range_succ _ _ _ n (ih (by omega)), List.range_succ, List.map_append,
      ← List.append_assoc, List.map_cons, List.map_nil]
    rcases Nat.lt_trichotomy n r with h | h | h
    · rw [print_cell_low mat r n _ _ h, show n + 1 - (r + 1) = n - (r + 1) by omega]
      unfold cell_spec
      rw [if_neg (by omega), if_pos h]
    · subst h
      rw [print_cell_diag, show n + 1 - (n + 1) = n - (n + 1) by omega]
      unfold cell_spec
      rw [if_pos rfl]
    · have hidx : r * k - r * (r + 1) / 2 + (n - (r + 1)) = idx k r n := by
        unfold idx; omega
      have hlt : idx k r n < B.length := by
        have := idx_lt k r n (by omega) (by omega)
        omega
      rw [hidx, print_cell_up mat B hB r n _ _ _ h (getD_of_lt B _ cell_t.zero hlt)]
      unfold cell_spec
      rw [if_neg (by omega), if_neg (by omega), ← hidx,
        show r * k - r * (r + 1) / 2 + (n - (r + 1)) + 1 =
          r * k - r * (r + 1) / 2 + (n + 1 - (r + 1)) by omega]


/-- The heading step of `print_dist_mat`. -/
theorem print_heading_eq (mat : dist_mat_t)
    (hnames : ∀ ns, mat.sample_names = some ns → mat.samples ≤ ns.length) (rrr : Nat) :
    print_heading mat rrr =
      some (if rrr = 0 then heading_spec mat.samples mat.sample_names else []) := by
  unfold print_heading heading_spec
  by_cases h : rrr = 0
  · rw [if_pos h, if_pos h]
    cases hs : mat.sample_names with
    | none => rfl
    | some ns =>
      simp only
      rw [heading_fold ns mat.samples (hnames ns hs)]
      rfl
  · rw [if_neg h, if_neg h]

/-- The label step of `print_dist_mat`. -/
theorem print_label_eq (mat : dist_mat_t)
    (hnames : ∀ ns, mat.sample_names = some ns → mat.samples ≤ ns.length) (rrr : Nat)
    (hr : rrr < mat.samples) :
    print_label mat rrr = some (label_spec mat.sample_names rrr) := by
  unfold print_label label_spec
  cases hs : mat.sample_names with
  | none => rfl
  | some ns =>
    simp only
    rw [getD_of_lt ns rrr "" (by have := hnames ns hs; omega)]
    rfl

/-- The row loop of `print_dist_mat` after `n` rows. -/
theorem lines_fold (mat : dist_mat_t) (B : List cell_t) (hB : mat.matrix = some B)
    (hlen : mat.samples * (mat.samples - 1) / 2 ≤ B.length)
    (hnames : ∀ ns, mat.sample_names = some ns → mat.samples ≤ ns.length)
    (n : Nat) (hn : n ≤ mat.samples) :
    (List.range n).foldlM
        (fun (st : Nat × List (List out_tok)) rrr => do
          let heading ← print_heading mat rrr
          let label ← print_label mat rrr
          let row ← (List.range mat.samples).foldlM (print_cell mat rrr) (st.1, label)
          some (row.1, st.2 ++ heading ++ [row.2]))
        (0, []) =
      some (n * mat.samples - n * (n + 1) / 2,
        (if n = 0 then [] else heading_spec mat.samples mat.sample_names) ++
          (List.range n).map (fun r => label_spec mat.sample_names r ++
            (List.range mat.samples).map (cell_spec mat.samples B r))) := by
  induction n with
  | zero => simp
  | succ n ih =>
    rw [foldlM_range_succ _ _ _ n (ih (by omega))]
    simp only [print_heading_eq mat hnames n, print_label_eq mat hnames n (by omega),
      Option.bind_eq_bind, Option.some_bind]
    rw [row_fold mat B hB mat.samples n (by omega) hlen _ mat.samples (le_refl _)]
    simp only [Option.some_bind, Option.some.injEq, Prod.mk.injEq]
    constructor
    · exact idx_row_start mat.samples n (by omega)
    · rw [List.range_succ, List.map_append, List.map_cons, List.map_nil]
      by_cases h0 : n = 0
      · subst h0
        simp
      · simp [h0]

/-- The lines `print_dist_mat` writes are the grid of the specification. -/
theorem print_dist_mat_eq (mat : dist_mat_t) (B : List cell_t) (hB : mat.matrix = some B)
    (hlen : mat.samples * (mat.samples - 1) / 2 ≤ B.length)
    (hnames : ∀ ns, mat.sample_names = some ns → mat.samples ≤ ns.length) :
    print_dist_mat mat = some (render_spec mat.samples B mat.sample_names) := by
  unfold print_dist_mat
  rw [lines_fold mat B hB hlen hnames mat.samples (le_refl _)]
  unfold render_spec
  by_cases h0 : mat.samples = 0
  · rw [h0]; rfl
  · rw [if_neg h0, if_neg h0]
    rfl

/-- The field of the specification's grid at data row `r`, data column `c`. -/
theorem data_cell_render (mat : dist_mat_t) (B : List cell_t) (r c : Nat)
    (hr : r < mat.samples) (hc : c < mat.samples) :
    data_cell mat (render_spec mat.samples B mat.sample_names) r c =
      some (cell_spec mat.samples B r c) := by
  unfold data_cell render_spec
  rw [if_neg (by omega)]
  cases mat.sample_names with
  | none =>
    simp only [heading_spec, label_spec, List.nil_append]
    rw [List.getElem?_map, List.getElem?_range hr]
    simp only [Option.map_some', Option.some_bind]
    rw [List.getElem?_map, List.getElem?_range hc]
    rfl
  | some ns =>
    simp only [heading_spec, label_spec, List.singleton_append, List.getElem?_cons_succ]
    rw [List.getElem?_map, List.getElem?_range hr]
    simp only [Option.map_some', Option.some_bind, List.getElem?_cons_succ]
    rw [List.getElem?_map, List.getElem?_range hc]
    rfl

/-- C10. For an accumulator with `k` samples and a block `B` (of at least
`k*(k-1)/2` slots; sample names, if any, at least `k`), `print_dist_mat`
writes a grid whose field at data row `r`, data column `c` (`r, c < k`) is
the zero value when `r = c`, the placeholder `.` when `c < r`, and the slot of
`B` at the flat index `idx k r c` when `c > r`, the index at which
`do_pairwise` accumulates the pair `(r, c)`. -/
theorem print_dist_mat_cells (mat : dist_mat_t) (B : List cell_t) (hB : mat.matrix = some B)
    (hlen : mat.samples * (mat.samples - 1) / 2 ≤ B.length)
    (hnames : ∀ ns, mat.sample_names = some ns → mat.samples ≤ ns.length) :
    ∃ lines, print_dist_mat mat = some lines ∧
      ∀ r c, r < mat.samples → c < mat.samples →
        (r = c → data_cell mat lines r c = some out_tok.zero) ∧
        (c < r → data_cell mat lines r c = some out_tok.dot) ∧
        (r < c → ∃ x, B[idx mat.samples r c]? = some x ∧
          data_cell mat lines r c = some (out_tok.slot x) ∧
          (visit_order mat.samples)[idx mat.samples r c]? = some (r, c)) := by
  refine ⟨_, print_dist_mat_eq mat B hB hlen hnames, ?_⟩
  intro r c hr hc
  rw [data_cell_render mat B r c hr hc]
  unfold cell_spec
  refine ⟨?_, ?_, ?_⟩
  · intro h
    rw [if_pos h]
  · intro h
    rw [if_neg (by omega), if_pos h]
  · intro h
    have hlt : idx mat.samples r c < B.length := by
      have := idx_lt mat.samples r c h hc
      omega
    refine ⟨_, getD_of_lt B _ cell_t.zero hlt, ?_, visit_order_getElem mat.samples r c h hc⟩
    rw [if_neg (by omega), if_neg (by omega)]

/-- C10 on a 2-sample accumulator holding 6: row A is `0, 6`, row B is `., 0`. -/
theorem print_dist_mat_cells_witness :
    print_dist_mat
        { samples := 2, pairs := 3,
          matrix := some [cell_t.ofU 6, cell_t.zero, cell_t.zero],
          sample_names := some ["A", "B"] } =
      some [[out_tok.dot, out_tok.name "A", out_tok.name "B"],
        [out_tok.name "A", out_tok.zero, out_tok.slot (cell_t.ofU 6)],
        [out_tok.name "B", out_tok.dot, out_tok.zero]] ∧
      ∃ lines, print_dist_mat
          { samples := 2, pairs := 3,
            matrix := some [cell_t.ofU 6, cell_t.zero, cell_t.zero],
            sample_names := some ["A", "B"] } = some lines :=
  ⟨by decide,
    (print_dist_mat_cells
      { samples := 2, pairs := 3,
        matrix := some [cell_t.ofU 6, cell_t.zero, cell_t.zero],
        sample_names := some ["A", "B"] }
      [cell_t.ofU 6, cell_t.zero, cell_t.zero] rfl (by decide)
      (fun ns h => by
        simp only [Option.some.injEq] at h
        subst h
        decide)).imp (fun _ h => h.1)⟩

/-! ## Rows of another width, and the first row -/

/-- The setup leaves an accumulator sized for `k >= 1` as it is, whatever the
width of the row at hand. -/
theorem dm_setup_of_sized (k : Nat) (hk1 : 1 ≤ k) (m : dist_mat_t) (hm : sized k m)
    (count : Nat) : dm_setup m count = m := by
  obtain ⟨h1, h2, B, h3, _⟩ := hm
  have hp : k * (k + 1) / 2 ≠ 0 := by
    have : 1 * (1 + 1) ≤ k * (k + 1) := Nat.mul_le_mul hk1 (by omega)
    omega
  have e1 : set_samples m count = m := by
    unfold set_samples
    rw [if_neg (show ¬ m.samples = 0 by omega)]
  have e2 : set_pairs m count = m := by
    unfold set_pairs
    rw [if_neg (show ¬ m.pairs = 0 by omega)]
  have e3 : alloc_matrix m = m := by
    unfold alloc_matrix
    rw [if_neg (show ¬ m.matrix = none by rw [h3]; exact Option.some_ne_none B)]
  unfold dm_setup
  rw [e1, e2, e3]

/-- A row of any width whose pairs fit into the block, on a sized accumulator. -/
theorem accepts_row_of_handler (mode : cell_mode_t)
    (row_fn : dist_mat_t → List cell_t → Nat → Option dist_mat_t)
    (f : cell_t → cell_t → cell_mode_t → cell_t)
    (hfn : ∀ m cells count, row_fn m cells count =
      do_pairwise (dm_setup m count) cells count mode (fun l r md => some (f l r md)))
    (k : Nat) (hk1 : 1 ≤ k) (m : dist_mat_t) (hm : sized k m) (cells : List cell_t)
    (hfit : cells.length * (cells.length - 1) / 2 ≤ k * (k + 1) / 2) :
    accepts_row mode row_fn f m cells := by
  have hm' := hm
  obtain ⟨_, _, B, h3, h4⟩ := hm'
  obtain ⟨B', hrun, hlen, hin, hout⟩ := do_pairwise_block mode f cells B m h3
    (by rw [h4]; exact hfit)
  refine ⟨B, B', h3, ?_, hlen, ?_, hout⟩
  · rw [hfn, dm_setup_of_sized k hk1 m hm]
    exact hrun
  · intro a b hab hb
    have hidx : idx cells.length a b < B.length := by
      have := idx_lt cells.length a b hab hb
      omega
    refine ⟨B[idx cells.length a b], List.getElem?_eq_getElem hidx, ?_⟩
    exact hin a b _ _ _ hab hb (getD_of_lt cells a cell_t.zero (by omega))
      (getD_of_lt cells b cell_t.zero hb) (List.getElem?_eq_getElem hidx)

/-- C12, as the claim states it, fails: on the accumulator the row `(1, 3, 4)`
has sized, the later row `(5, 1)` of width 2 is not rejected by `dm_manhattan`;
it is added into slot 0, which goes from 2 to 6. -/
theorem mismatched_row_not_rejected :
    dm_manhattan .I64 dist_mat_t.fresh [cell_t.ofI 1, cell_t.ofI 3, cell_t.ofI 4] 3 =
        some { samples := 3, pairs := 6,
               matrix := some [cell_t.ofI 2, cell_t.ofI 3, cell_t.ofI 1,
                 cell_t.zero, cell_t.zero, cell_t.zero],
               sample_names := none } ∧
      dm_manhattan .I64
          { samples := 3, pairs := 6,
            matrix := some [cell_t.ofI 2, cell_t.ofI 3, cell_t.ofI 1,
              cell_t.zero, cell_t.zero, cell_t.zero],
            sample_names := none }
          [cell_t.ofI 5, cell_t.ofI 1] 2 =
        some { samples := 3, pairs := 6,
               matrix := some [cell_t.ofI 6, cell_t.ofI 3, cell_t.ofI 1,
                 cell_t.zero, cell_t.zero, cell_t.zero],
               sample_names := none } ∧
      cell_t.ofI 6 ≠ cell_t.ofI 2 := by
  decide

/-- C12, amended. On an accumulator sized by a first row of width `k >= 1`, a
later row of another width is not rejected by any of the three handlers: when
its `w*(w-1)/2` pairs fit into the block of `k*(k+1)/2` slots, the call
returns, and the row is accumulated pair by pair into the first `w*(w-1)/2`
slots, at the flat indices of its own width `w`; `samples`, `pairs`, the block
length and the remaining slots are unchanged. -/
theorem mismatched_row_accumulated (mode : cell_mode_t) (T : cell_t) (k : Nat) (hk1 : 1 ≤ k)
    (m : dist_mat_t) (hm : sized k m) (cells : List cell_t)
    (hfit : cells.length * (cells.length - 1) / 2 ≤ k * (k + 1) / 2) :
    accepts_row mode (dm_canberra mode) canberra_value m cells ∧
      accepts_row mode (dm_manhattan mode) calc_manhattan m cells ∧
      accepts_row mode (dm_manhattan_binary T mode) (calc_manhattan_binary T) m cells :=
  ⟨accepts_row_of_handler mode _ _ (dm_canberra_eq mode) k hk1 m hm cells hfit,
    accepts_row_of_handler mode _ _ (dm_manhattan_eq mode) k hk1 m hm cells hfit,
    accepts_row_of_handler mode _ _ (dm_manhattan_binary_eq T mode) k hk1 m hm cells hfit⟩

/-- C12, amended, on the accumulator sized by `(1, 3, 4)` and the row `(5, 1)`. -/
theorem mismatched_row_accumulated_witness :
    accepts_row .I64 (dm_manhattan .I64) calc_manhattan
      { samples := 3, pairs := 6,
        matrix := some [cell_t.ofI 2, cell_t.ofI 3, cell_t.ofI 1,
          cell_t.zero, cell_t.zero, cell_t.zero],
        sample_names := none }
      [cell_t.ofI 5, cell_t.ofI 1] :=
  (mismatched_row_accumulated .I64 (cell_t.ofI 1) 3 (by decide)
    { samples := 3, pairs := 6,
      matrix := some [cell_t.ofI 2, cell_t.ofI 3, cell_t.ofI 1,
        cell_t.zero, cell_t.zero, cell_t.zero],
      sample_names := none }
    ⟨rfl, rfl, _, rfl, rfl⟩ [cell_t.ofI 5, cell_t.ofI 1] (by decide)).2.1

/-- The call `do_pairwise` never touches `samples`, `pairs` or the names. -/
theorem do_pairwise_fields (mat m' : dist_mat_t) (cells : List cell_t) (count : Nat)
    (mode : cell_mode_t) (calc_fn : cell_t → cell_t → cell_mode_t → Option cell_t)
    (h : do_pairwise mat cells count mode calc_fn = some m') :
    m'.samples = mat.samples ∧ m'.pairs = mat.pairs ∧ m'.sample_names = mat.sample_names := by
  unfold do_pairwise at h
  cases hf : (List.range count).foldlM
      (fun st aaa =>
        (List.range' (aaa + 1) (count - (aaa + 1))).foldlM
          (fun st bbb => pairwise_body calc_fn mode cells st aaa bbb) st)
      (0, mat.matrix) with
  | none => rw [hf] at h; exact absurd h (by simp)
  | some st =>
    rw [hf] at h
    simp only [Option.bind_eq_bind, Option.some_bind, Option.some.injEq] at h
    subst h
    exact ⟨rfl, rfl, rfl⟩

/-- C13. After a first row of zero cells, `samples` is still 0 and the next
row sets it again: the rows `()`, `(7)` leave `samples = 1` and `pairs = 1`,
not the length 0 of the first row; and after `()` the row `(1, 3)` finds a
block of no slots, so that its write is out of bounds. -/
theorem samples_reset_after_empty_first_row :
    dm_manhattan .U64 dist_mat_t.fresh [] 0 =
        some { samples := 0, pairs := 0, matrix := some [], sample_names := none } ∧
      observe_rows (dm_manhattan .U64) dist_mat_t.fresh [[], [cell_t.ofU 7]] =
        some { samples := 1, pairs := 1, matrix := some [], sample_names := none } ∧
      observe_rows (dm_manhattan .U64) dist_mat_t.fresh
        [[], [cell_t.ofU 1, cell_t.ofU 3]] = none := by
  decide

/-! ## The nonzero-count filter -/

/-- The loop of `ft_num_nonzero` returns within `count - iii` iterations, and
`passes` reaches the threshold exactly when the count over the rest of the
row allows it. -/
theorem ft_loop_spec (positive : cell_t → Bool) (threshold : Nat) (cells : List cell_t) :
    ∀ (fuel iii passes : Nat), iii + fuel = cells.length → passes ≤ threshold →
      ∃ st, ft_loop positive threshold cells cells.length fuel iii passes = some st ∧
        (threshold ≤ st.2 ↔ threshold ≤ passes + (cells.drop iii).countP positive) := by
  intro fuel
  induction fuel with
  | zero =>
    intro iii passes hi _
    refine ⟨(iii, passes), ?_, ?_⟩
    · unfold ft_loop
      rw [if_neg (by omega)]
    · rw [List.drop_of_length_le (by omega)]
      simp
  | succ fuel ih =>
    intro iii passes hi hp
    unfold ft_loop
    by_cases hc : iii < cells.length ∧ passes < threshold
    · rw [if_pos hc, List.getElem?_eq_getElem hc.1]
      obtain ⟨st, hst, hiff⟩ := ih (iii + 1)
        (if positive cells[iii] then passes + 1 else passes) (by omega)
        (by split <;> omega)
      refine ⟨st, hst, ?_⟩
      rw [hiff, List.drop_eq_getElem_cons hc.1, List.countP_cons]
      split <;> omega
    · rw [if_neg hc]
      refine ⟨(iii, passes), rfl, ?_⟩
      have h : cells.length ≤ iii ∨ threshold ≤ passes := by omega
      rcases h with h | h
      · rw [List.drop_of_length_le h]
        simp
      · simp only [h, true_iff]
        omega

/-- C14. In the unsigned mode, and in the signed mode with a non-negative
threshold, `ft_num_nonzero` on a row of `count` cells returns, and writes the
line unchanged exactly once when the number of cells above zero in the whole
row is at least the threshold, and nothing otherwise: the short-circuiting
loop decides as the count over the whole row does. -/
theorem ft_num_nonzero_counts_whole_row (threshold : cell_t) (line : String)
    (cells : List cell_t) :
    ft_num_nonzero .U64 threshold line cells cells.length =
        some (nonzero_filter_spec (fun c => decide (c.u > 0)) threshold.u line cells) ∧
      (0 ≤ threshold.i →
        ft_num_nonzero .I64 threshold line cells cells.length =
          some (nonzero_filter_spec (fun c => decide (c.i > 0)) threshold.i line cells)) := by
  constructor
  · obtain ⟨st, hst, hiff⟩ := ft_loop_spec (fun c => decide (c.u > 0)) threshold.u cells
      cells.length 0 0 (by omega) (by omega)
    simp only [ft_num_nonzero, hst, Option.bind_eq_bind, Option.some_bind, nonzero_filter_spec]
    rw [List.drop_zero, Nat.zero_add] at hiff
    by_cases h : threshold.u ≤ st.2
    · rw [if_pos h, if_pos (by exact_mod_cast hiff.mp h)]
    · rw [if_neg h, if_neg (by
        intro h'
        exact h (hiff.mpr (by exact_mod_cast h')))]
  · intro hthr
    obtain ⟨st, hst, hiff⟩ := ft_loop_spec (fun c => decide (c.i > 0)) (to_u64 threshold.i) cells
      cells.length 0 0 (by omega) (by omega)
    have hconv : ((to_u64 threshold.i : Nat) : Int) = threshold.i := by
      have := threshold.i_upper
      unfold to_u64
      simp only [W64, H64] at *
      omega
    simp only [ft_num_nonzero, hst, Option.bind_eq_bind, Option.some_bind, nonzero_filter_spec]
    rw [List.drop_zero, Nat.zero_add] at hiff
    by_cases h : to_u64 threshold.i ≤ st.2
    · rw [if_pos h, if_pos (by
        have := hiff.mp h
        omega)]
    · rw [if_neg h, if_neg (by
        intro h'
        exact h (hiff.mpr (by omega)))]

/-- C14 at threshold 2: the row `[0, 0, 5]` is dropped, the row `[0, 4, 5]` is
kept, in the unsigned and in the signed mode. -/
theorem ft_num_nonzero_counts_whole_row_witness :
    ft_num_nonzero .U64 (cell_t.ofU 2) "0\t0\t5\n"
        [cell_t.ofU 0, cell_t.ofU 0, cell_t.ofU 5] 3 = some [] ∧
      ft_num_nonzero .U64 (cell_t.ofU 2) "0\t4\t5\n"
        [cell_t.ofU 0, cell_t.ofU 4, cell_t.ofU 5] 3 = some ["0\t4\t5\n"] ∧
      ft_num_nonzero .I64 (cell_t.ofI 2) "0\t4\t5\n"
        [cell_t.ofI 0, cell_t.ofI 4, cell_t.ofI 5] 3 = some ["0\t4\t5\n"] :=
  ⟨by decide, by decide,
    ((ft_num_nonzero_counts_whole_row (cell_t.ofI 2) "0\t4\t5\n"
      [cell_t.ofI 0, cell_t.ofI 4, cell_t.ofI 5]).2 (by decide)).trans (by decide)⟩

/-! ## The header line -/

/-- The loop of `process_header` from a current token on: the tokens that are
left after the columns still to pass over are stored in order. -/
theorem header_loop_spec (kmroundupz : Nat → Nat) (hgrow : ∀ x, 16 ≤ x → x < kmroundupz x)
    (skipcol : Nat) :
    ∀ (rest : List (List Char)) (t : List Char) (st : header_state),
      st.samples.length < st.n_alloced → 16 ≤ st.n_alloced →
      ∃ st', header_loop kmroundupz skipcol rest (some t) st = some st' ∧
        st'.samples = st.samples ++ ((t :: rest).drop (skipcol - st.col)).map strip_newline := by
  have hbody : ∀ (t : List Char) (st : header_state),
      st.samples.length < st.n_alloced → 16 ≤ st.n_alloced →
      ∃ st', header_body kmroundupz skipcol st (some t) = some st' ∧
        st'.col = st.col + 1 ∧ st'.samples.length < st'.n_alloced ∧ 16 ≤ st'.n_alloced ∧
        st'.samples = st.samples ++ ([t].drop (skipcol - st.col)).map strip_newline := by
    intro t st h1 h2
    unfold header_body
    by_cases hc : st.col < skipcol
    · rw [if_pos hc]
      refine ⟨_, rfl, rfl, h1, h2, ?_⟩
      obtain ⟨d, hd⟩ : ∃ d, skipcol - st.col = d + 1 := ⟨skipcol - st.col - 1, by omega⟩
      rw [hd]
      simp
    · rw [if_neg hc]
      have hd : skipcol - st.col = 0 := by omega
      have hg := hgrow st.n_alloced h2
      by_cases hfull : st.samples.length + 1 ≥ st.n_alloced
      · simp only [hfull, if_true]
        rw [if_pos (by omega)]
        refine ⟨_, rfl, rfl, ?_, ?_, ?_⟩
        · simp only [List.length_append, List.length_singleton]; omega
        · simp only; omega
        · rw [hd]; rfl
      · simp only [hfull, if_false]
        rw [if_pos h1]
        refine ⟨_, rfl, rfl, ?_, h2, ?_⟩
        · simp only [List.length_append, List.length_singleton]; omega
        · rw [hd]; rfl
  intro rest
  induction rest with
  | nil =>
    intro t st h1 h2
    obtain ⟨st', hb, _, _, _, hs⟩ := hbody t st h1 h2
    exact ⟨st', hb, hs⟩
  | cons t' rest ih =>
    intro t st h1 h2
    obtain ⟨st1, hb, hcol, h1', h2', hs⟩ := hbody t st h1 h2
    obtain ⟨st', hl, hs'⟩ := ih t' st1 h1' h2'
    refine ⟨st', ?_, ?_⟩
    · unfold header_loop
      rw [hb]
      exact hl
    · rw [hs', hs, hcol, List.append_assoc, ← List.map_append]
      congr 2
      by_cases hc : st.col < skipcol
      · obtain ⟨d, hd⟩ : ∃ d, skipcol - st.col = d + 1 := ⟨skipcol - st.col - 1, by omega⟩
        rw [hd, show skipcol - (st.col + 1) = d by omega]
        simp
      · rw [show skipcol - st.col = 0 by omega, show skipcol - (st.col + 1) = 0 by omega]
        rfl

/-- What `process_header` stores for a line with more tokens than columns to
pass over, whatever names the accumulator held before. -/
theorem process_header_eq (kmroundupz : Nat → Nat) (hgrow : ∀ x, 16 ≤ x → x < kmroundupz x)
    (sep : String) (skipcol : Nat) (mat : dist_mat_t) (line : String)
    (hs : skipcol < (strtok_tokens sep.toList line.toList).length) :
    process_header kmroundupz sep skipcol mat line =
      some { mat with sample_names := some (header_names_spec sep skipcol line) } := by
  unfold process_header header_names_spec
  cases htoks : strtok_tokens sep.toList line.toList with
  | nil => rw [htoks] at hs; exact absurd hs (by simp)
  | cons t rest =>
    obtain ⟨st', hl, hs'⟩ := header_loop_spec kmroundupz hgrow skipcol rest t
      { col := 0, n_alloced := 16, samples := [] } (by decide) (by decide)
    simp only [List.tail_cons, List.head?_cons, hl, Option.bind_eq_bind, Option.some_bind, hs',
      List.nil_append, Nat.sub_zero]

/-- A token without line feed is copied whole, and a token that ends in its
only line feed is copied without it. -/
theorem strip_newline_eq (body : List Char) (h : newline ∉ body) :
    strip_newline body = String.mk body ∧
      strip_newline (body ++ [newline]) = String.mk body := by
  have hall : ∀ c ∈ body, decide (c ≠ newline) = true := by
    intro c hc
    simp only [decide_eq_true_eq]
    intro he
    exact h (he ▸ hc)
  unfold strip_newline
  constructor
  · rw [List.takeWhile_eq_self_iff.mpr hall]
  · congr 1
    rw [List.takeWhile_append_of_pos hall]
    simp [List.takeWhile]

/-- C15. For a header line of `n` tokens (as `strtok_r` splits it at the
separator characters) and `s < n` columns to pass over, `process_header`
returns and stores as sample names exactly the `n - s` tokens after the first
`s`, in their order; a name is its token up to the line feed, so a token
ending in a line feed is stored without it.  The array of names is taken to
grow when `kmroundupz` is called (`kmroundupz x > x` from 16 on). -/
theorem process_header_stores_names (kmroundupz : Nat → Nat)
    (hgrow : ∀ x, 16 ≤ x → x < kmroundupz x) (sep : String) (skipcol : Nat)
    (mat : dist_mat_t) (line : String)
    (hs : skipcol < (strtok_tokens sep.toList line.toList).length) :
    ∃ names, process_header kmroundupz sep skipcol mat line =
          some { mat with sample_names := some names } ∧
        names = ((strtok_tokens sep.toList line.toList).drop skipcol).map strip_newline ∧
        names.length = (strtok_tokens sep.toList line.toList).length - skipcol ∧
        (∀ j, j < (strtok_tokens sep.toList line.toList).length - skipcol →
          names[j]? = ((strtok_tokens sep.toList line.toList)[skipcol + j]?).map strip_newline) ∧
        (∀ body, newline ∉ body → strip_newline body = String.mk body ∧
          strip_newline (body ++ [newline]) = String.mk body) := by
  refine ⟨_, process_header_eq kmroundupz hgrow sep skipcol mat line hs, rfl, ?_, ?_,
    strip_newline_eq⟩
  · unfold header_names_spec
    rw [List.length_map, List.length_drop]
  · intro j _
    unfold header_names_spec
    rw [List.getElem?_map, List.getElem?_drop]

/-- C15 on the line `id<TAB>A<TAB>B<LF>` with one column passed over: the names are `A`, `B`. -/
theorem process_header_stores_names_witness :
    process_header (fun x => 2 * x) "\t" 1 dist_mat_t.fresh "id\tA\tB\n" =
        some { dist_mat_t.fresh with sample_names := some ["A", "B"] } ∧
      ∃ names, process_header (fun x => 2 * x) "\t" 1 dist_mat_t.fresh "id\tA\tB\n" =
        some { dist_mat_t.fresh with sample_names := some names } :=
  ⟨by decide,
    (process_header_stores_names (fun x => 2 * x) (fun x hx => by show x < 2 * x; omega) "\t" 1
      dist_mat_t.fresh "id\tA\tB\n" (by decide)).imp (fun _ h => h.1)⟩

/-- C16, as the claim states it, fails: after the two skipped lines
`id<TAB>A<TAB>B<LF>` and `id<TAB>C<TAB>D<LF>` the accumulator holds the names
`C`, `D` of the second line, not the names `A`, `B` of the first. -/
theorem header_names_replaced :
    observe_headers (fun x => 2 * x) "\t" 1 dist_mat_t.fresh ["id\tA\tB\n", "id\tC\tD\n"] =
        some { dist_mat_t.fresh with sample_names := some ["C", "D"] } ∧
      process_header (fun x => 2 * x) "\t" 1 dist_mat_t.fresh "id\tA\tB\n" =
        some { dist_mat_t.fresh with sample_names := some ["A", "B"] } ∧
      ["C", "D"] ≠ ["A", "B"] := by
  decide

/-- C16, amended. When `process_header` is called on each of several skipped
lines in order (each with more tokens than columns to pass over), the sample
names held afterwards are those captured from the last of them: every call
replaces the names of the call before. -/
theorem header_names_from_last_line (kmroundupz : Nat → Nat)
    (hgrow : ∀ x, 16 ≤ x → x < kmroundupz x) (sep : String) (skipcol : Nat)
    (lines : List String) (last : String)
    (hs : ∀ l ∈ lines ++ [last], skipcol < (strtok_tokens sep.toList l.toList).length)
    (mat : dist_mat_t) :
    observe_headers kmroundupz sep skipcol mat (lines ++ [last]) =
      some { mat with sample_names := some (header_names_spec sep skipcol last) } := by
  unfold observe_headers
  induction lines generalizing mat with
  | nil =>
    rw [List.nil_append, List.foldlM_cons,
      process_header_eq kmroundupz hgrow sep skipcol mat last (hs last (by simp))]
    rfl
  | cons l lines ih =>
    rw [List.cons_append, List.foldlM_cons,
      process_header_eq kmroundupz hgrow sep skipcol mat l (hs l (by simp))]
    exact ih (fun x hx => hs x (List.mem_cons_of_mem l hx)) _

/-- C16, amended, on the lines `id<TAB>A<TAB>B<LF>` and `id<TAB>C<TAB>D<LF>`. -/
theorem header_names_from_last_line_witness :
    observe_headers (fun x => 2 * x) "\t" 1 dist_mat_t.fresh
        (["id\tA\tB\n"] ++ ["id\tC\tD\n"]) =
      some { dist_mat_t.fresh with
        sample_names := some (header_names_spec "\t" 1 "id\tC\tD\n") } :=
  header_names_from_last_line (fun x => 2 * x) (fun x hx => by show x < 2 * x; omega) "\t" 1
    ["id\tA\tB\n"] "id\tC\tD\n" (by decide) dist_mat_t.fresh

/-! ## Command line -/

/-- C17. A path that merely starts with `-` selects the standard stream: with
`-i -x -o -y`, both `parse_args` read standard input and write standard
output, and store the names `stdin` and `stdout`; no file `-x` or `-y` is
opened.  The test is `strncmp(name, "-", 1) == 0`, which compares one
character only. -/
theorem dash_prefix_selects_standard_stream :
    parse_args (fun _ => 0) (fun _ => true) (fun _ => true)
        [('m', ""), ('i', "-x"), ('o', "-y")] =
      parse_result.returned 1
        { haveflags := 7,
          tab := { table_t.fresh with
            fname := some "stdin", outfname := some "stdout", sep := some "\t",
            fp := some stream_t.stdin, outfp := some stream_t.stdout,
            row_fn := some row_fn_t.dm_manhattan, mode_D64 := true },
          number_arg := none } ∧
      filter_parse_args (fun _ => 0) (fun _ => true) (fun _ => true)
        [('z', "2"), ('i', "-x"), ('o', "-y")] =
      parse_result.returned 1
        { haveflags := 7,
          tab := { table_t.fresh with
            fname := some "stdin", outfname := some "stdout", sep := some "\t",
            fp := some stream_t.stdin, outfp := some stream_t.stdout,
            row_fn := some row_fn_t.ft_num_nonzero },
          number_arg := some "2" } ∧
      strncmp_eq "-x" "-" 1 = true := by
  decide

/-- Which input `setup_input` selects once `-i path` has been given: standard
input exactly when the first character of the path is `-`, else the file. -/
theorem setup_input_given (can_read : String → Bool) (st : parse_state) (path : String)
    (hflag : st.haveflags &&& 4 ≠ 0) (hname : st.tab.fname = some path) :
    (path.toList.take 1 = ['-'] →
        (setup_input can_read st).tab.fp = some stream_t.stdin) ∧
      (path.toList.take 1 ≠ ['-'] →
        (setup_input can_read st).tab.fp =
          if can_read path then some (stream_t.file path) else none) := by
  have hw : wants_std st.haveflags 4 st.tab.fname = decide (path.toList.take 1 = ['-']) := by
    unfold wants_std strncmp_eq
    rw [hname]
    have hb : (st.haveflags &&& 4 == 0) = false := by
      rw [beq_eq_false_iff_ne]
      exact hflag
    rw [hb, Bool.false_or]
    rfl
  unfold setup_input
  constructor
  · intro h
    rw [hw, if_pos (by simpa using h)]
  · intro h
    rw [hw, if_neg (by simpa using h), hname]
    rfl

/-- Without `-i`, `setup_input` selects standard input. -/
theorem setup_input_default (can_read : String → Bool) (st : parse_state)
    (hflag : st.haveflags &&& 4 = 0) :
    (setup_input can_read st).tab.fp = some stream_t.stdin := by
  unfold setup_input wants_std
  rw [if_pos (by simp [hflag])]

/-- The flag of bit 0 under the assignments to `haveflags`. -/
theorem haveflags_bits :
    ∀ h, h < 64 →
      ((h ||| 1) &&& 1 = 1) ∧ ((h ||| 2) &&& 1 = h &&& 1) ∧ ((h ||| 4) &&& 1 = h &&& 1) ∧
      ((h ||| 8) &&& 1 = h &&& 1) ∧ ((h ||| 16) &&& 1 = h &&& 1) ∧
      ((h ||| 32) &&& 1 = h &&& 1) ∧ ((h ||| 4) &&& 4 = 4) ∧ ((h ||| 2) &&& 2 = 2) ∧
      ((h ||| 2) &&& 4 = h &&& 4) ∧ (h &&& 4 ≠ 0 → h &&& 4 = 4) ∧ (h &&& 2 ≠ 0 → h &&& 2 = 2) ∧
      (h &&& 4 = 4 → h &&& 2 = 2 → (h &&& 7 = 7 ↔ h &&& 1 = 1)) := by
  decide

/-- Setting flags in a `haveflags` below 64 keeps it below 64. -/
theorem or_lt_64 (h k : Nat) (hh : h < 64) (hk : k < 64) : h ||| k < 64 :=
  Nat.or_lt_two_pow (show h < 2 ^ 6 from hh) (show k < 2 ^ 6 from hk)

/-- One option other than `-h` in `dist.c`: the loop goes on, and bit 0 of
`haveflags` is set when it was set or the option is a metric flag. -/
theorem dist_option_flag (atol : String → Int) (st : parse_state) (c : Char) (optarg : String)
    (hc : c ≠ 'h') (hlt : st.haveflags < 64) :
    ∃ st', dist_option atol st c optarg = some st' ∧ st'.haveflags < 64 ∧
      (st'.haveflags &&& 1 = 1 ↔
        (st.haveflags &&& 1 = 1 ∨ c = 'm' ∨ c = 'M' ∨ c = 'C')) := by
  have hb := haveflags_bits st.haveflags hlt
  have hor : ∀ k, k < 64 → st.haveflags ||| k < 64 := fun k hk =>
    or_lt_64 st.haveflags k hlt hk
  unfold dist_option
  split_ifs with h1 h2 h3 h4 h5 h6 h7 h8
  · exact ⟨_, rfl, hor 1 (by decide), by simp [hb.1, h1]⟩
  · exact ⟨_, rfl, hor 1 (by decide), by simp [hb.1, h2]⟩
  · exact ⟨_, rfl, hor 1 (by decide), by simp [hb.1, h3]⟩
  · exact ⟨_, rfl, hor 2 (by decide), by simp [hb.2.1, h1, h2, h3]⟩
  · exact ⟨_, rfl, hor 4 (by decide), by simp [hb.2.2.1, h1, h2, h3]⟩
  · exact ⟨_, rfl, hor 8 (by decide), by simp [hb.2.2.2.1, h1, h2, h3]⟩
  · exact ⟨_, rfl, hor 16 (by decide), by simp [hb.2.2.2.2.1, h1, h2, h3]⟩
  · exact ⟨_, rfl, hor 32 (by decide), by simp [hb.2.2.2.2.2.1, h1, h2, h3]⟩
  · exact ⟨_, rfl, hlt, by simp [h1, h2, h3]⟩

/-- The option loop of `dist.c` on options without `-h`. -/
theorem dist_options_flag (atol : String → Int) :
    ∀ (opts : List (Char × String)) (st : parse_state), (∀ o ∈ opts, o.1 ≠ 'h') →
      st.haveflags < 64 →
      ∃ st', opts.foldlM (fun st o => dist_option atol st o.1 o.2) st = some st' ∧
        st'.haveflags < 64 ∧
        (st'.haveflags &&& 1 = 1 ↔
          (st.haveflags &&& 1 = 1 ∨ ∃ o ∈ opts, o.1 = 'm' ∨ o.1 = 'M' ∨ o.1 = 'C')) := by
  intro opts
  induction opts with
  | nil =>
    intro st _ hlt
    exact ⟨st, rfl, hlt, by simp⟩
  | cons o opts ih =>
    intro st hh hlt
    obtain ⟨st1, h1, hlt1, hiff1⟩ :=
      dist_option_flag atol st o.1 o.2 (hh o (List.mem_cons_self o opts)) hlt
    obtain ⟨st', h2, hlt2, hiff2⟩ := ih st1 (fun x hx => hh x (List.mem_cons_of_mem o hx)) hlt1
    refine ⟨st', ?_, hlt2, ?_⟩
    · rw [List.foldlM_cons, h1]
      exact h2
    · rw [hiff2, hiff1]
      simp only [List.mem_cons, exists_eq_or_imp]
      exact or_assoc

/-- The end of `parse_args` when every path can be opened: it returns 1 when
bit 0 of `haveflags` is set, and 0 otherwise. -/
theorem parse_finish_code (can_read can_write : String → Bool)
    (hread : ∀ p, can_read p = true) (hwrite : ∀ p, can_write p = true) (st : parse_state)
    (hlt : st.haveflags < 64) :
    ∃ st', parse_finish can_read can_write st =
      parse_result.returned (if st.haveflags &&& 1 = 1 then 1 else 0) st' := by
  -- the default separator does not touch `haveflags`
  obtain ⟨s0, hs0, hf0⟩ : ∃ s0 : parse_state,
      (if st.tab.sep = none then { st with tab := { st.tab with sep := some "\t" } } else st)
        = s0 ∧ s0.haveflags = st.haveflags := by
    refine ⟨_, rfl, ?_⟩
    split <;> rfl
  -- the input stream
  have hin : (setup_input can_read s0).tab.fp ≠ none ∧
      (setup_input can_read s0).haveflags < 64 ∧
      (setup_input can_read s0).haveflags &&& 4 = 4 ∧
      (setup_input can_read s0).haveflags &&& 1 = st.haveflags &&& 1 := by
    have hb := haveflags_bits s0.haveflags (by omega)
    unfold setup_input
    by_cases hw : wants_std s0.haveflags 4 s0.tab.fname = true
    · rw [if_pos hw]
      refine ⟨by simp, or_lt_64 _ _ (by omega) (by decide), hb.2.2.2.2.2.2.1, ?_⟩
      show (s0.haveflags ||| 4) &&& 1 = st.haveflags &&& 1
      rw [hb.2.2.1, hf0]
    · rw [if_neg hw]
      unfold wants_std at hw
      simp only [Bool.or_eq_true, beq_iff_eq, not_or] at hw
      obtain ⟨hbit, hname⟩ := hw
      cases hfn : s0.tab.fname with
      | none => rw [hfn] at hname; exact absurd rfl hname
      | some f =>
        refine ⟨by simp [hread f], ?_, hb.2.2.2.2.2.2.2.2.2.1 hbit, ?_⟩
        · show s0.haveflags < 64
          omega
        · show s0.haveflags &&& 1 = st.haveflags &&& 1
          rw [hf0]
  obtain ⟨hfp, hlt1, hb4, hb1⟩ := hin
  obtain ⟨s1, hs1⟩ : ∃ s1, setup_input can_read s0 = s1 := ⟨_, rfl⟩
  rw [hs1] at hfp hlt1 hb4 hb1
  -- the output stream
  have hout : (setup_output can_write s1).tab.outfp ≠ none ∧
      (setup_output can_write s1).haveflags < 64 ∧
      (setup_output can_write s1).haveflags &&& 4 = 4 ∧
      (setup_output can_write s1).haveflags &&& 2 = 2 ∧
      (setup_output can_write s1).haveflags &&& 1 = st.haveflags &&& 1 := by
    have hb := haveflags_bits s1.haveflags hlt1
    unfold setup_output
    by_cases hw : wants_std s1.haveflags 2 s1.tab.outfname = true
    · rw [if_pos hw]
      refine ⟨by simp, or_lt_64 _ _ hlt1 (by decide), ?_, hb.2.2.2.2.2.2.2.1, ?_⟩
      · show (s1.haveflags ||| 2) &&& 4 = 4
        rw [hb.2.2.2.2.2.2.2.2.1, hb4]
      · show (s1.haveflags ||| 2) &&& 1 = st.haveflags &&& 1
        rw [hb.2.1, hb1]
    · rw [if_neg hw]
      unfold wants_std at hw
      simp only [Bool.or_eq_true, beq_iff_eq, not_or] at hw
      obtain ⟨hbit, hname⟩ := hw
      cases hfn : s1.tab.outfname with
      | none => rw [hfn] at hname; exact absurd rfl hname
      | some f =>
        exact ⟨by simp [hwrite f], hlt1, hb4, hb.2.2.2.2.2.2.2.2.2.2.1 hbit, hb1⟩
  obtain ⟨hofp, hlt2, hc4, hc2, hc1⟩ := hout
  have hfin := (haveflags_bits _ hlt2).2.2.2.2.2.2.2.2.2.2.2 hc4 hc2
  obtain ⟨s2, hs2⟩ : ∃ s2, setup_output can_write s1 = s2 := ⟨_, rfl⟩
  rw [hs2] at hofp hc1 hfin
  refine ⟨s2, ?_⟩
  unfold parse_finish
  simp only [hs0, hs1, hs2, if_neg hfp, if_neg hofp]
  by_cases h1 : st.haveflags &&& 1 = 1
  · rw [if_pos h1, if_neg (not_not.mpr (hfin.mpr (hc1.trans h1)))]
  · rw [if_neg h1, if_pos (fun h => h1 (hc1.symm.trans (hfin.mp h)))]

/-- C18, as the claim states it, fails: with the two metric flags `-m -C`
`parse_args` of `dist.c` returns 1 (the handler is the one of the last flag),
and with `-h` alone it does not report failure but leaves the process with
status 0. -/
theorem two_metric_flags_accepted :
    parse_args (fun _ => 0) (fun _ => true) (fun _ => true) [('m', ""), ('C', "")] =
      parse_result.returned 1
        { haveflags := 7,
          tab := { table_t.fresh with
            fname := some "stdin", outfname := some "stdout", sep := some "\t",
            fp := some stream_t.stdin, outfp := some stream_t.stdout,
            row_fn := some row_fn_t.dm_canberra, mode_D64 := true },
          number_arg := none } ∧
      parse_args (fun _ => 0) (fun _ => true) (fun _ => true) [('h', "")] =
        parse_result.exited 0 := by
  decide

/-! ## Canberra in the signed mode -/

/-- The value of `calc_canberra` in the signed mode is 1 when numerator and
denominator agree and are not zero. -/
theorem canberra_value_one (left right : cell_t)
    (h : KM_ABS_DIFF_i64 left.i right.i = KM_ABS_SUM_i64 left.i right.i)
    (h0 : KM_ABS_SUM_i64 left.i right.i ≠ 0) :
    (canberra_value left right .I64).i = 1 := by
  simp only [canberra_value]
  rw [if_neg h0, h, Int.tdiv_self h0]
  decide

/-- The value of `calc_canberra` in the signed mode is 0 when the numerator is
zero, or is not negative and below the denominator. -/
theorem canberra_value_zero (left right : cell_t)
    (h : KM_ABS_DIFF_i64 left.i right.i = 0 ∨
      (0 ≤ KM_ABS_DIFF_i64 left.i right.i ∧
        KM_ABS_DIFF_i64 left.i right.i < KM_ABS_SUM_i64 left.i right.i)) :
    (canberra_value left right .I64).i = 0 := by
  simp only [canberra_value]
  split
  · decide
  · rcases h with h | ⟨h1, h2⟩
    · rw [h, Int.zero_tdiv]
      decide
    · rw [Int.tdiv_eq_zero_of_lt h1 h2]
      decide

/-- C19. In the signed mode, for cells with `|left|` and `|right|` at most
`2^62`, `calc_canberra` returns the truncated quotient of `|left - right|` by
`|left| + |right|`; it is 0 or 1, and it is 1 exactly when `left` and `right`
are not both zero and `left * right <= 0`. -/
theorem calc_canberra_I64_zero_or_one (left right : cell_t)
    (hl : |left.i| ≤ 2 ^ 62) (hr : |right.i| ≤ 2 ^ 62) :
    ∃ v, calc_canberra left right .I64 = some v ∧
      v.i = Int.tdiv |left.i - right.i| (|left.i| + |right.i|) ∧
      (v.i = 0 ∨ v.i = 1) ∧
      (v.i = 1 ↔ ¬ (left.i = 0 ∧ right.i = 0) ∧ left.i * right.i ≤ 0) := by
  refine ⟨canberra_value left right .I64, calc_canberra_eq left right .I64, ?_⟩
  have hl' := abs_le.mp hl
  have hr' := abs_le.mp hr
  have hone := canberra_value_one left right
  have hzero := canberra_value_zero left right
  generalize canberra_value left right .I64 = v at hone hzero
  generalize left.i = l at *
  generalize right.i = r at *
  have al := abs_cases l
  have ar := abs_cases r
  have ad := abs_cases (l - r)
  norm_num at hl' hr'
  rw [mul_nonpos_iff]
  by_cases hsame : (0 < l ∧ 0 < r) ∨ (l < 0 ∧ r < 0)
  · -- same strict sign: the quotient is 0
    have hv : v.i = 0 := by
      apply hzero
      unfold KM_ABS_DIFF_i64 KM_ABS_SUM_i64 abs_i64 sub_i64 add_i64 neg_i64 wrap_i64
      simp only [W64, H64]
      split_ifs <;> omega
    have hq : Int.tdiv |l - r| (|l| + |r|) = 0 :=
      Int.tdiv_eq_zero_of_lt (abs_nonneg _) (by omega)
    rw [hv, hq]
    refine ⟨rfl, Or.inl rfl, ?_⟩
    constructor
    · intro h
      exact absurd h (by decide)
    · intro h
      omega
  · by_cases hboth : l = 0 ∧ r = 0
    · -- both zero: the zero denominator gives 0
      obtain ⟨h1, h2⟩ := hboth
      subst h1 h2
      have hv : v.i = 0 := hzero (Or.inl (by decide))
      rw [hv]
      refine ⟨by decide, Or.inl rfl, ?_⟩
      constructor
      · intro h
        exact absurd h (by decide)
      · intro h
        exact absurd ⟨rfl, rfl⟩ h.1
    · -- opposite signs, or exactly one zero: the quotient is 1
      have hND : KM_ABS_DIFF_i64 l r = KM_ABS_SUM_i64 l r ∧ KM_ABS_SUM_i64 l r ≠ 0 := by
        unfold KM_ABS_DIFF_i64 KM_ABS_SUM_i64 abs_i64 sub_i64 add_i64 neg_i64 wrap_i64
        simp only [W64, H64]
        split_ifs <;> omega
      have hv : v.i = 1 := hone hND.1 hND.2
      have hq : Int.tdiv |l - r| (|l| + |r|) = 1 := by
        have e : |l - r| = |l| + |r| := by omega
        rw [e]
        exact Int.tdiv_self (by omega)
      rw [hv, hq]
      refine ⟨rfl, Or.inr rfl, ?_⟩
      constructor
      · intro _
        exact ⟨hboth, by omega⟩
      · intro _
        rfl

/-- C19 at `left = -5`, `right = 3`: the result is 1. -/
theorem calc_canberra_I64_zero_or_one_witness :
    ∃ v, calc_canberra (cell_t.ofI (-5)) (cell_t.ofI 3) .I64 = some v ∧ v.i = 1 := by
  obtain ⟨v, h1, _, _, h4⟩ := calc_canberra_I64_zero_or_one (cell_t.ofI (-5)) (cell_t.ofI 3)
    (by decide) (by decide)
  exact ⟨v, h1, h4.mpr (by decide)⟩

/-! ## Rows too wide for the block -/

/-- The call `do_pairwise` is its two loops followed by the return of the block. -/
theorem do_pairwise_eq_run (mat : dist_mat_t) (cells : List cell_t) (count : Nat)
    (mode : cell_mode_t) (calc_fn : cell_t → cell_t → cell_mode_t → Option cell_t) :
    do_pairwise mat cells count mode calc_fn =
      (do_pairwise_run mat cells count mode calc_fn).map
        (fun st => { mat with matrix := st.2 }) := by
  unfold do_pairwise do_pairwise_run
  cases (List.range count).foldlM
    (fun st aaa =>
      (List.range' (aaa + 1) (count - (aaa + 1))).foldlM
        (fun st bbb => pairwise_body calc_fn mode cells st aaa bbb) st)
    (0, mat.matrix) <;> rfl

/-- The loop body has no result when the running index is the length of the block. -/
theorem pairwise_body_full (calc_fn : cell_t → cell_t → cell_mode_t → Option cell_t)
    (mode : cell_mode_t) (cells B : List cell_t) (aaa bbb : Nat) :
    pairwise_body calc_fn mode cells (B.length, some B) aaa bbb = none := by
  have hB : B[B.length]? = none := List.getElem?_eq_none (le_refl _)
  simp [pairwise_body, hB]

/-- A block with fewer slots than the row has pairs: the loops of
`do_pairwise` reach the end of the block and the next write is out of bounds. -/
theorem do_pairwise_run_short_block (mode : cell_mode_t)
    (f : cell_t → cell_t → cell_mode_t → cell_t) (cells B : List cell_t) (mat : dist_mat_t)
    (hB : mat.matrix = some B)
    (hshort : B.length < cells.length * (cells.length - 1) / 2) :
    do_pairwise_run mat cells cells.length mode (fun l r m => some (f l r m)) = none := by
  unfold do_pairwise_run
  rw [hB, nested_eq_visit_order (pairwise_body (fun l r m => some (f l r m)) mode cells)]
  have hlen : B.length < (visit_order cells.length).length := by
    rw [visit_order_length]; exact hshort
  have htake : ((visit_order cells.length).take B.length).length = B.length := by
    rw [List.length_take]; omega
  obtain ⟨B', hfold, hlen', _⟩ :=
    fold_pairs f mode cells ((visit_order cells.length).take B.length) 0 B
      (fun p hp => visit_order_bounds cells p (List.mem_of_mem_take hp))
      (by rw [htake]; omega)
  rw [htake, Nat.zero_add] at hfold
  rw [← List.take_append_drop B.length (visit_order cells.length), List.foldlM_append, hfold]
  cases hd : (visit_order cells.length).drop B.length with
  | nil =>
    have := congrArg List.length hd
    rw [List.length_drop, List.length_nil] at this
    omega
  | cons p rest =>
    simp only [Option.bind_eq_bind, Option.some_bind, List.foldlM_cons]
    rw [← hlen', pairwise_body_full]
    rfl

/-- With such a block the call `do_pairwise` has no result. -/
theorem do_pairwise_short_block (mode : cell_mode_t)
    (f : cell_t → cell_t → cell_mode_t → cell_t) (cells B : List cell_t) (mat : dist_mat_t)
    (hB : mat.matrix = some B)
    (hshort : B.length < cells.length * (cells.length - 1) / 2) :
    do_pairwise mat cells cells.length mode (fun l r m => some (f l r m)) = none := by
  rw [do_pairwise_eq_run, do_pairwise_run_short_block mode f cells B mat hB hshort]
  rfl

/-- The product `count * (count + 1)` at `count = 2^32` wraps: the handlers
store `pairs = 2^31`, fewer than the `2^32 * (2^32 - 1) / 2` pairs of the row. -/
theorem pairs_wrap_at_2_32 :
    (4294967296 * ((4294967296 + 1) % W64)) % W64 / 2 = 2147483648 ∧
      2147483648 < 4294967296 * (4294967296 - 1) / 2 := by
  unfold W64
  constructor <;> norm_num

/-- A first row of `2^32` cells: the handler allocates `2^31` slots and the
writes of `do_pairwise` run out of the block. -/
theorem wide_row_no_result (mode : cell_mode_t)
    (row_fn : dist_mat_t → List cell_t → Nat → Option dist_mat_t)
    (f : cell_t → cell_t → cell_mode_t → cell_t)
    (hfn : ∀ m cells count, row_fn m cells count =
      do_pairwise (dm_setup m count) cells count mode (fun l r md => some (f l r md)))
    (row : List cell_t) (hrow : row.length = 4294967296) :
    row_fn dist_mat_t.fresh row row.length = none := by
  rw [hfn]
  have hsetup : (dm_setup dist_mat_t.fresh row.length).matrix =
      some (List.replicate 2147483648 cell_t.zero) := by
    rw [hrow]
    simp only [dm_setup, set_samples, set_pairs, alloc_matrix, dist_mat_t.fresh, km_calloc,
      if_true, pairs_wrap_at_2_32.1]
  refine do_pairwise_short_block mode f row _ _ hsetup ?_
  rw [List.length_replicate, hrow]
  exact pairs_wrap_at_2_32.2

/-- Rows that start with a row of `2^32` cells: observing them has no result. -/
theorem wide_rows_no_result (mode : cell_mode_t)
    (row_fn : dist_mat_t → List cell_t → Nat → Option dist_mat_t)
    (f : cell_t → cell_t → cell_mode_t → cell_t)
    (hfn : ∀ m cells count, row_fn m cells count =
      do_pairwise (dm_setup m count) cells count mode (fun l r md => some (f l r md)))
    (row : List cell_t) (hrow : row.length = 4294967296) (rest : List (List cell_t)) :
    observe_rows row_fn dist_mat_t.fresh (row :: rest) = none := by
  unfold observe_rows
  rw [List.foldlM_cons, wide_row_no_result mode row_fn f hfn row hrow]
  rfl

/-! ## Bounds of the block accesses -/

/-- The grid of the specification depends only on the first `k*(k-1)/2` slots. -/
theorem render_spec_take (k : Nat) (B : List cell_t) (names : Option (List String)) :
    render_spec k (B.take (k * (k - 1) / 2)) names = render_spec k B names := by
  have hcell : ∀ r ∈ List.range k, ∀ c ∈ List.range k,
      cell_spec k (B.take (k * (k - 1) / 2)) r c = cell_spec k B r c := by
    intro r _ c hc
    unfold cell_spec
    by_cases h1 : r = c
    · rw [if_pos h1, if_pos h1]
    · rw [if_neg h1, if_neg h1]
      by_cases h2 : c < r
      · rw [if_pos h2, if_pos h2]
      · rw [if_neg h2, if_neg h2]
        have hlt := idx_lt k r c (by omega) (List.mem_range.mp hc)
        rw [List.getD_eq_getElem?_getD, List.getD_eq_getElem?_getD,
          List.getElem?_take_of_lt hlt]
  have hrow : ∀ r ∈ List.range k,
      (List.range k).map (cell_spec k (B.take (k * (k - 1) / 2)) r) =
        (List.range k).map (cell_spec k B r) :=
    fun r hr => List.map_congr_left (hcell r hr)
  unfold render_spec
  split
  · rfl
  · congr 1
    exact List.map_congr_left (fun r hr => by rw [hrow r hr])

/-- Bounds of the block accesses for a handler that is the shared setup
followed by `do_pairwise` with the metric `f`. -/
theorem accesses_in_bounds_of_handler (mode : cell_mode_t)
    (row_fn : dist_mat_t → List cell_t → Nat → Option dist_mat_t)
    (f : cell_t → cell_t → cell_mode_t → cell_t)
    (hfn : ∀ m cells count, row_fn m cells count =
      do_pairwise (dm_setup m count) cells count mode (fun l r md => some (f l r md)))
    (k : Nat) (hk : k < 2 ^ 32) (rows : List (List cell_t)) (hne : rows ≠ [])
    (hw : ∀ r ∈ rows, r.length = k) :
    accesses_in_bounds mode row_fn f rows k := by
  cases rows with
  | nil => exact absurd rfl hne
  | cons row rest =>
    obtain ⟨B', hrun, hlen, _⟩ := rows_fresh mode f k hk row rest hw
    have hsetup := dm_setup_fresh k hk
    have hsamples : (dm_setup dist_mat_t.fresh k).samples = k := by rw [hsetup]
    have hpairs : (dm_setup dist_mat_t.fresh k).pairs = k * (k + 1) / 2 := by rw [hsetup]
    have hnames : (dm_setup dist_mat_t.fresh k).sample_names = none := by rw [hsetup]
    have htri := tri_le_pairs k
    refine ⟨{ dm_setup dist_mat_t.fresh k with matrix := some B' }, B',
      render_spec k B' none, ?_, rfl, hsamples, hpairs, by rw [hlen]; exact hpairs.symm,
      by rw [show ({ dm_setup dist_mat_t.fresh k with matrix := some B' } : dist_mat_t).pairs
        = k * (k + 1) / 2 from hpairs]; exact htri, ?_, ?_, ?_⟩
    · unfold observe_rows
      rw [← hrun]
      congr 1
      funext m r
      exact hfn m r r.length
    · intro r hr m0 B0 hm0 hB0
      have hrk : r.length = k := hw r hr
      have hrun0 : do_pairwise_run m0 r r.length mode (fun l r md => some (f l r md)) =
          (visit_order k).foldlM
            (fun st p => pairwise_body (fun l r md => some (f l r md)) mode r st p.1 p.2)
            (0, some B0) := by
        unfold do_pairwise_run
        rw [hm0, nested_eq_visit_order
          (pairwise_body (fun l r md => some (f l r md)) mode r), hrk]
      have hpre : ∀ n, n ≤ k * (k - 1) / 2 →
          ∃ Bn, ((visit_order k).take n).foldlM
            (fun st p => pairwise_body (fun l r md => some (f l r md)) mode r st p.1 p.2)
            (0, some B0) = some (n, some Bn) := by
        intro n hn
        have hn' : ((visit_order k).take n).length = n := by
          rw [List.length_take, visit_order_length]; omega
        obtain ⟨Bn, hfold, _⟩ :=
          fold_pairs f mode r ((visit_order k).take n) 0 B0
            (fun p hp => by
              have := visit_order_bounds r p (by rw [hrk]; exact List.mem_of_mem_take hp)
              exact this)
            (by
              rw [hn', hB0]
              show 0 + n ≤ (dm_setup dist_mat_t.fresh k).pairs
              omega)
        rw [hn', Nat.zero_add] at hfold
        exact ⟨Bn, hfold⟩
      refine ⟨?_, hrun0, hpre⟩
      obtain ⟨B1, h1⟩ := hpre (k * (k - 1) / 2) (le_refl _)
      refine ⟨B1, ?_⟩
      rw [hrun0, ← h1, List.take_of_length_le (by rw [visit_order_length])]
    · have h := print_dist_mat_eq { dm_setup dist_mat_t.fresh k with matrix := some B' } B' rfl
        (by
          show k * (k - 1) / 2 ≤ B'.length
          omega)
        (fun ns hns => by
          have : (none : Option (List String)) = some ns := hnames ▸ hns
          exact absurd this (by simp))
      rw [h]
      show some (render_spec k B' (dm_setup dist_mat_t.fresh k).sample_names) = _
      rw [hnames]
    · have h := print_dist_mat_eq
        { dm_setup dist_mat_t.fresh k with matrix := some (B'.take (k * (k - 1) / 2)) }
        (B'.take (k * (k - 1) / 2)) rfl
        (by
          show k * (k - 1) / 2 ≤ (B'.take (k * (k - 1) / 2)).length
          rw [List.length_take]
          omega)
        (fun ns hns => by
          have : (none : Option (List String)) = some ns := hnames ▸ hns
          exact absurd this (by simp))
      show print_dist_mat
        { dm_setup dist_mat_t.fresh k with matrix := some (B'.take (k * (k - 1) / 2)) } = _
      rw [h]
      show some (render_spec k (B'.take (k * (k - 1) / 2))
        (dm_setup dist_mat_t.fresh k).sample_names) = _
      rw [hnames, render_spec_take]

/-- C20, amended. If every observed row has the width `k` of the first, `k`
below `2^32` (so that the `size_t` product of the handlers does not wrap),
then for each of the three handlers no block access is out of bounds: every index `do_pairwise` writes is below the allocated `pairs`, each
row makes exactly `k*(k-1)/2` writes, and every index `print_dist_mat` reads is
below `k*(k-1)/2`. -/
theorem block_accesses_in_bounds (mode : cell_mode_t) (T : cell_t) (k : Nat)
    (hk : k < 2 ^ 32) (rows : List (List cell_t)) (hne : rows ≠ [])
    (hw : ∀ r ∈ rows, r.length = k) :
    accesses_in_bounds mode (dm_canberra mode) canberra_value rows k ∧
      accesses_in_bounds mode (dm_manhattan mode) calc_manhattan rows k ∧
      accesses_in_bounds mode (dm_manhattan_binary T mode) (calc_manhattan_binary T) rows k :=
  ⟨accesses_in_bounds_of_handler mode _ _ (dm_canberra_eq mode) k hk rows hne hw,
    accesses_in_bounds_of_handler mode _ _ (dm_manhattan_eq mode) k hk rows hne hw,
    accesses_in_bounds_of_handler mode _ _ (dm_manhattan_binary_eq T mode) k hk rows hne hw⟩

/-- C20, amended, on the rows `(1, 3, 4)` and `(2, 2, 9)` in the unsigned mode. -/
theorem block_accesses_in_bounds_witness :
    accesses_in_bounds .U64 (dm_manhattan_binary (cell_t.ofU 1) .U64)
      (calc_manhattan_binary (cell_t.ofU 1))
      [[cell_t.ofU 1, cell_t.ofU 3, cell_t.ofU 4], [cell_t.ofU 2, cell_t.ofU 2, cell_t.ofU 9]]
      3 :=
  (block_accesses_in_bounds .U64 (cell_t.ofU 1) 3 (by decide)
    [[cell_t.ofU 1, cell_t.ofU 3, cell_t.ofU 4], [cell_t.ofU 2, cell_t.ofU 2, cell_t.ofU 9]]
    (by decide) (by decide)).2.2

/-! ## After a first row with cells -/

/-- The setup keeps a `samples` and a `pairs` that are not zero. -/
theorem dm_setup_keeps (m : dist_mat_t) (count : Nat) (hs : m.samples ≠ 0) (hp : m.pairs ≠ 0) :
    (dm_setup m count).samples = m.samples ∧ (dm_setup m count).pairs = m.pairs := by
  have e1 : set_samples m count = m := by
    unfold set_samples
    rw [if_neg hs]
  have e2 : set_pairs m count = m := by
    unfold set_pairs
    rw [if_neg hp]
  unfold dm_setup
  rw [e1, e2]
  unfold alloc_matrix
  split <;> exact ⟨rfl, rfl⟩

/-- Once `samples` and `pairs` are not zero, no row of any width changes them,
for as long as the handler returns. -/
theorem samples_pairs_kept (mode : cell_mode_t)
    (row_fn : dist_mat_t → List cell_t → Nat → Option dist_mat_t)
    (f : cell_t → cell_t → cell_mode_t → cell_t)
    (hfn : ∀ m cells count, row_fn m cells count =
      do_pairwise (dm_setup m count) cells count mode (fun l r md => some (f l r md))) :
    ∀ (rows : List (List cell_t)) (m m' : dist_mat_t), m.samples ≠ 0 → m.pairs ≠ 0 →
      observe_rows row_fn m rows = some m' →
      m'.samples = m.samples ∧ m'.pairs = m.pairs := by
  intro rows
  induction rows with
  | nil =>
    intro m m' _ _ h
    unfold observe_rows at h
    rw [List.foldlM_nil] at h
    simp only [pure, Option.some.injEq] at h
    subst h
    exact ⟨rfl, rfl⟩
  | cons row rows ih =>
    intro m m' hs hp h
    unfold observe_rows at h
    rw [List.foldlM_cons] at h
    cases h1 : row_fn m row row.length with
    | none => rw [h1] at h; exact absurd h (by simp)
    | some m1 =>
      rw [h1] at h
      rw [hfn] at h1
      obtain ⟨hs1, hp1, _⟩ := do_pairwise_fields _ m1 _ _ _ _ h1
      obtain ⟨hs0, hp0⟩ := dm_setup_keeps m row.length hs hp
      rw [hs0] at hs1
      rw [hp0] at hp1
      obtain ⟨hs2, hp2⟩ := ih m1 m' (by rw [hs1]; exact hs) (by rw [hp1]; exact hp) h
      exact ⟨hs2.trans hs1, hp2.trans hp1⟩

/-- When the first row has `k >= 1` cells, `samples` is `k` and `pairs` is
`k*(k+1)/2` after every further row of any width, for as long as the handlers
return. -/
theorem samples_fixed_of_nonempty_first_row (mode : cell_mode_t)
    (row_fn : dist_mat_t → List cell_t → Nat → Option dist_mat_t)
    (f : cell_t → cell_t → cell_mode_t → cell_t)
    (hfn : ∀ m cells count, row_fn m cells count =
      do_pairwise (dm_setup m count) cells count mode (fun l r md => some (f l r md)))
    (k : Nat) (hk1 : 1 ≤ k) (hk : k < 2 ^ 32) (row : List cell_t) (hrow : row.length = k)
    (rest : List (List cell_t)) (m' : dist_mat_t)
    (h : observe_rows row_fn dist_mat_t.fresh (row :: rest) = some m') :
    m'.samples = k ∧ m'.pairs = k * (k + 1) / 2 := by
  have hp : k * (k + 1) / 2 ≠ 0 := by
    have : 1 * (1 + 1) ≤ k * (k + 1) := Nat.mul_le_mul hk1 (by omega)
    omega
  unfold observe_rows at h
  rw [List.foldlM_cons] at h
  cases h1 : row_fn dist_mat_t.fresh row row.length with
  | none => rw [h1] at h; exact absurd h (by simp)
  | some m1 =>
    rw [h1] at h
    rw [hfn, hrow, dm_setup_fresh k hk] at h1
    obtain ⟨hs1, hp1, _⟩ := do_pairwise_fields _ m1 _ _ _ _ h1
    simp only at hs1 hp1
    obtain ⟨hs2, hp2⟩ := samples_pairs_kept mode row_fn f hfn rest m1 m'
      (by rw [hs1]; omega) (by rw [hp1]; exact hp) h
    exact ⟨hs2.trans hs1, hp2.trans hp1⟩

/-! ## The order of the rows -/

/-- Rows of width `k` observed in turn on an accumulator sized for `k` leave
every slot from `k*(k-1)/2` on as it was. -/
theorem rows_sized_tail (mode : cell_mode_t) (f : cell_t → cell_t → cell_mode_t → cell_t)
    (k : Nat) (hk : k < 2 ^ 32) :
    ∀ (rows : List (List cell_t)) (m : dist_mat_t), sized k m →
      (∀ row ∈ rows, row.length = k) →
      ∃ B B', m.matrix = some B ∧
        rows.foldlM (fun m row => do_pairwise (dm_setup m row.length) row row.length mode
          (fun l r md => some (f l r md))) m = some { m with matrix := some B' } ∧
        ∀ j, k * (k - 1) / 2 ≤ j → B'[j]? = B[j]? := by
  intro rows
  induction rows with
  | nil =>
    intro m hm _
    obtain ⟨_, _, B, h3, _⟩ := hm
    refine ⟨B, B, h3, ?_, fun _ _ => rfl⟩
    cases m
    simp only at h3
    subst h3
    rfl
  | cons row rows ih =>
    intro m hm hw
    obtain ⟨B, B1, hB, hrun, hs1, _, hout⟩ :=
      step_sized mode f k hk m hm row (hw row (List.mem_cons_self row rows))
    obtain ⟨B1', B2, hB1, hrun2, hout2⟩ :=
      ih { m with matrix := some B1 } hs1 (fun r hr => hw r (List.mem_cons_of_mem row hr))
    simp only [Option.some.injEq] at hB1
    subst hB1
    refine ⟨B, B2, hB, ?_, fun j hj => (hout2 j hj).trans (hout j hj)⟩
    rw [List.foldlM_cons, hrun]
    exact hrun2

/-- The block after rows of width `k` on a fresh accumulator, slot by slot:
the slot of a pair holds the sum of the metric bits modulo `2^64`, and every
slot from `k*(k-1)/2` on is as allocated. -/
theorem rows_fresh_block (mode : cell_mode_t) (f : cell_t → cell_t → cell_mode_t → cell_t)
    (k : Nat) (hk : k < 2 ^ 32) (rows : List (List cell_t)) (hne : rows ≠ [])
    (hw : ∀ r ∈ rows, r.length = k) :
    ∃ B', rows.foldlM (fun m r => do_pairwise (dm_setup m r.length) r r.length mode
          (fun l r md => some (f l r md))) dist_mat_t.fresh =
        some { dm_setup dist_mat_t.fresh k with matrix := some B' } ∧
      (∀ a b, a < b → b < k → ∃ c, B'[idx k a b]? = some c ∧
        c.bits = (rows.map (fun r =>
          (f (r.getD a cell_t.zero) (r.getD b cell_t.zero) mode).bits)).sum % W64) ∧
      ∀ j, k * (k - 1) / 2 ≤ j →
        B'[j]? = (List.replicate (k * (k + 1) / 2) cell_t.zero)[j]? := by
  cases rows with
  | nil => exact absurd rfl hne
  | cons row rest =>
    obtain ⟨B', hrun, _, hin⟩ := rows_fresh mode f k hk row rest hw
    refine ⟨B', hrun, hin, ?_⟩
    have hs := sized_setup_fresh k hk
    obtain ⟨B0, B'', hB0, hrun', hout⟩ :=
      rows_sized_tail mode f k hk (row :: rest) (dm_setup dist_mat_t.fresh k) hs hw
    have hrow : row.length = k := hw row (List.mem_cons_self row rest)
    have hsame : (row :: rest).foldlM (fun m r => do_pairwise (dm_setup m r.length) r r.length
        mode (fun l r md => some (f l r md))) dist_mat_t.fresh =
        some { dm_setup dist_mat_t.fresh k with matrix := some B'' } := by
      rw [← hrun', List.foldlM_cons, List.foldlM_cons, hrow,
        dm_setup_sized k (dm_setup dist_mat_t.fresh k) hk hs]
    rw [hsame] at hrun
    have hBB : B'' = B' := by
      have := congrArg (fun o => o.bind (fun m => m.matrix)) hrun
      simpa using this
    subst hBB
    rw [dm_setup_fresh k hk] at hB0
    simp only [Option.some.injEq] at hB0
    subst hB0
    exact hout

/-- The result of a handler that is the shared setup followed by `do_pairwise`
with the metric `f` does not depend on the order of the rows. -/
theorem order_irrelevant_of_handler (mode : cell_mode_t)
    (row_fn : dist_mat_t → List cell_t → Nat → Option dist_mat_t)
    (f : cell_t → cell_t → cell_mode_t → cell_t)
    (hfn : ∀ m cells count, row_fn m cells count =
      do_pairwise (dm_setup m count) cells count mode (fun l r md => some (f l r md)))
    (k : Nat) (hk : k < 2 ^ 32) (rows rows' : List (List cell_t)) (hperm : rows.Perm rows')
    (hne : rows ≠ []) (hw : ∀ r ∈ rows, r.length = k) :
    ∃ m, observe_rows row_fn dist_mat_t.fresh rows = some m ∧
      observe_rows row_fn dist_mat_t.fresh rows' = some m := by
  have hne' : rows' ≠ [] := fun h => hne (List.Perm.eq_nil (h ▸ hperm))
  have hw' : ∀ r ∈ rows', r.length = k := fun r hr => hw r (hperm.mem_iff.mpr hr)
  obtain ⟨B1, hrun1, hin1, hout1⟩ := rows_fresh_block mode f k hk rows hne hw
  obtain ⟨B2, hrun2, hin2, hout2⟩ := rows_fresh_block mode f k hk rows' hne' hw'
  have hfun : (fun m (r : List cell_t) => row_fn m r r.length) =
      (fun m r => do_pairwise (dm_setup m r.length) r r.length mode
        (fun l r md => some (f l r md))) := by
    funext m r
    exact hfn m r r.length
  have hB : B1 = B2 := by
    apply List.ext_getElem?
    intro j
    by_cases hj : j < k * (k - 1) / 2
    · have hjl : j < (visit_order k).length := by rw [visit_order_length]; exact hj
      obtain ⟨ha, hb, hidx⟩ := (visit_order_getElem_iff k j (visit_order k)[j].1
        (visit_order k)[j].2).mp (List.getElem?_eq_getElem hjl)
      obtain ⟨c1, hc1, hb1⟩ := hin1 _ _ ha hb
      obtain ⟨c2, hc2, hb2⟩ := hin2 _ _ ha hb
      rw [hidx] at hc1 hc2
      rw [hc1, hc2]
      congr 1
      apply cell_t.ext_bits
      rw [hb1, hb2, (hperm.map _).sum_eq]
    · rw [hout1 j (by omega), hout2 j (by omega)]
  subst hB
  refine ⟨{ dm_setup dist_mat_t.fresh k with matrix := some B1 }, ?_, ?_⟩
  · unfold observe_rows
    rw [hfun]
    exact hrun1
  · unfold observe_rows
    rw [hfun]
    exact hrun2

/-- C21, amended. In both integer modes and for each of the three handlers, the
accumulator does not depend on the order of the rows: for rows of one width
`k` (below `2^32`) and any permutation of them, observing either list on a
fresh accumulator returns, and returns the same accumulator, with the same
`samples`, `pairs` and block. -/
theorem row_order_irrelevant (mode : cell_mode_t) (T : cell_t) (k : Nat) (hk : k < 2 ^ 32)
    (rows rows' : List (List cell_t)) (hperm : rows.Perm rows') (hne : rows ≠ [])
    (hw : ∀ r ∈ rows, r.length = k) :
    (∃ m, observe_rows (dm_canberra mode) dist_mat_t.fresh rows = some m ∧
        observe_rows (dm_canberra mode) dist_mat_t.fresh rows' = some m) ∧
      (∃ m, observe_rows (dm_manhattan mode) dist_mat_t.fresh rows = some m ∧
        observe_rows (dm_manhattan mode) dist_mat_t.fresh rows' = some m) ∧
      (∃ m, observe_rows (dm_manhattan_binary T mode) dist_mat_t.fresh rows = some m ∧
        observe_rows (dm_manhattan_binary T mode) dist_mat_t.fresh rows' = some m) :=
  ⟨order_irrelevant_of_handler mode _ _ (dm_canberra_eq mode) k hk rows rows' hperm hne hw,
    order_irrelevant_of_handler mode _ _ (dm_manhattan_eq mode) k hk rows rows' hperm hne hw,
    order_irrelevant_of_handler mode _ _ (dm_manhattan_binary_eq T mode) k hk rows rows' hperm
      hne hw⟩

/-- C21, amended, on the rows `(1, 3, 4)`, `(2, 2, 9)` and their swap, in the unsigned mode. -/
theorem row_order_irrelevant_witness :
    ∃ m, observe_rows (dm_manhattan .U64) dist_mat_t.fresh
          [[cell_t.ofU 1, cell_t.ofU 3, cell_t.ofU 4],
            [cell_t.ofU 2, cell_t.ofU 2, cell_t.ofU 9]] = some m ∧
        observe_rows (dm_manhattan .U64) dist_mat_t.fresh
          [[cell_t.ofU 2, cell_t.ofU 2, cell_t.ofU 9],
            [cell_t.ofU 1, cell_t.ofU 3, cell_t.ofU 4]] = some m :=
  (row_order_irrelevant .U64 (cell_t.ofU 1) 3 (by decide)
    [[cell_t.ofU 1, cell_t.ofU 3, cell_t.ofU 4], [cell_t.ofU 2, cell_t.ofU 2, cell_t.ofU 9]]
    [[cell_t.ofU 2, cell_t.ofU 2, cell_t.ofU 9], [cell_t.ofU 1, cell_t.ofU 3, cell_t.ofU 4]]
    (List.Perm.swap _ _ []) (by decide) (by decide)).2.1

/-! ## Rows of 2^32 cells -/

/-- The length claim at width `2^32`: a first row of that width sizes no block,
in either integer mode. -/
theorem length_fixed_fails_wide (mode : cell_mode_t) (n : Nat) :
    ¬ length_fixed (dm_manhattan mode) (List.replicate 4294967296 cell_t.zero) [] n := by
  rintro ⟨m1, B1, m2, B2, h, _⟩
  rw [wide_row_no_result mode (dm_manhattan mode) calc_manhattan
    (dm_manhattan_eq mode) (List.replicate 4294967296 cell_t.zero)
    (List.length_replicate _ _)] at h
  exact Option.noConfusion h

/-- C1, as the claim states it, fails: for a single row of `2^32` cells (all
zero) `dm_manhattan` on a fresh accumulator has no result, in either integer
mode, and no slot holds anything: the handler stores `pairs = 2^31`, since
`2^32 * (2^32 + 1)` wraps in `size_t`, and the writes of the row run out of
the block of `2^31` slots. -/
theorem accumulation_fails_at_width_2_32 :
    (∀ r ∈ [List.replicate 4294967296 cell_t.zero], r.length = 4294967296) ∧
      ∀ mode : cell_mode_t,
        observe_rows (dm_manhattan mode) dist_mat_t.fresh
          [List.replicate 4294967296 cell_t.zero] = none ∧
        ¬ accumulates mode (dm_manhattan mode) calc_manhattan
          [List.replicate 4294967296 cell_t.zero] 4294967296 := by
  refine ⟨?_, fun mode => ?_⟩
  · intro r hr
    rw [List.mem_singleton] at hr
    rw [hr]
    exact List.length_replicate _ _
  · have hnone := wide_rows_no_result mode (dm_manhattan mode) calc_manhattan
      (dm_manhattan_eq mode) (List.replicate 4294967296 cell_t.zero)
      (List.length_replicate _ _) []
    refine ⟨hnone, ?_⟩
    rintro ⟨m, B, h, _⟩
    rw [hnone] at h
    exact Option.noConfusion h

/-- C3, as the claim states it, fails twice. After a first row of width 2 the
block of `dm_manhattan` has 3 slots, not `2*(2-1)/2 = 1`. And a first row of
`2^32` cells sizes no block of any length that the handler then fills: the
handler stores `pairs = 2^31` and has no result. -/
theorem buffer_length_not_strict_triangle :
    (dm_manhattan .U64 dist_mat_t.fresh [cell_t.ofU 1, cell_t.ofU 3] 2).map
        (fun m => m.matrix.map List.length) = some (some 3) ∧
      ¬ length_fixed (dm_manhattan .U64) [cell_t.ofU 1, cell_t.ofU 3] [] (2 * (2 - 1) / 2) ∧
      (dm_setup dist_mat_t.fresh 4294967296).pairs = 2147483648 ∧
      ∀ (mode : cell_mode_t) (n : Nat),
        ¬ length_fixed (dm_manhattan mode) (List.replicate 4294967296 cell_t.zero) [] n := by
  have hrun : dm_manhattan .U64 dist_mat_t.fresh [cell_t.ofU 1, cell_t.ofU 3] 2 =
      some { samples := 2, pairs := 3,
             matrix := some [cell_t.ofU 18446744073709551614, cell_t.zero, cell_t.zero],
             sample_names := none } := by decide
  refine ⟨by rw [hrun]; rfl, ?_, ?_, length_fixed_fails_wide⟩
  · rintro ⟨m1, B1, m2, B2, h1, h2, h3, _⟩
    rw [show [cell_t.ofU 1, cell_t.ofU 3].length = 2 from rfl, hrun] at h1
    simp only [Option.some.injEq] at h1
    subst h1
    simp only [Option.some.injEq] at h2
    subst h2
    exact absurd h3 (by decide)
  · simp only [dm_setup, set_samples, set_pairs, alloc_matrix, dist_mat_t.fresh, km_calloc,
      if_true, pairs_wrap_at_2_32.1]

/-- C20, as the claim states it, fails: for a single row of `2^32` cells
`dm_manhattan` allocates `pairs = 2^31` slots, fewer than the
`2^32 * (2^32 - 1) / 2` pairs of the row, and in either integer mode its
writes leave the block. -/
theorem accesses_out_of_bounds_at_width_2_32 :
    (dm_setup dist_mat_t.fresh 4294967296).pairs = 2147483648 ∧
      2147483648 < 4294967296 * (4294967296 - 1) / 2 ∧
      ∀ mode : cell_mode_t,
        dm_manhattan mode dist_mat_t.fresh (List.replicate 4294967296 cell_t.zero)
          (List.replicate 4294967296 cell_t.zero).length = none ∧
        ¬ accesses_in_bounds mode (dm_manhattan mode) calc_manhattan
          [List.replicate 4294967296 cell_t.zero] 4294967296 := by
  refine ⟨?_, pairs_wrap_at_2_32.2, fun mode => ⟨?_, ?_⟩⟩
  · simp only [dm_setup, set_samples, set_pairs, alloc_matrix, dist_mat_t.fresh, km_calloc,
      if_true, pairs_wrap_at_2_32.1]
  · exact wide_row_no_result mode (dm_manhattan mode) calc_manhattan
      (dm_manhattan_eq mode) (List.replicate 4294967296 cell_t.zero)
      (List.length_replicate _ _)
  · rintro ⟨m, B, lines, h, _⟩
    rw [wide_rows_no_result mode (dm_manhattan mode) calc_manhattan
      (dm_manhattan_eq mode) (List.replicate 4294967296 cell_t.zero)
      (List.length_replicate _ _) []] at h
    exact Option.noConfusion h

/-- C21, as the claim states it, fails: a single row of `2^32` cells is a
permutation of itself, and observing it by `dm_manhattan` on a fresh
accumulator yields no accumulator at all, in either order and either integer
mode. -/
theorem order_claim_fails_at_width_2_32 :
    List.Perm [List.replicate 4294967296 cell_t.zero]
        [List.replicate 4294967296 cell_t.zero] ∧
      ∀ mode : cell_mode_t,
        ¬ ∃ m, observe_rows (dm_manhattan mode) dist_mat_t.fresh
              [List.replicate 4294967296 cell_t.zero] = some m ∧
            observe_rows (dm_manhattan mode) dist_mat_t.fresh
              [List.replicate 4294967296 cell_t.zero] = some m := by
  refine ⟨List.Perm.refl _, fun mode => ?_⟩
  rintro ⟨m, h, _⟩
  rw [wide_rows_no_result mode (dm_manhattan mode) calc_manhattan
    (dm_manhattan_eq mode) (List.replicate 4294967296 cell_t.zero)
    (List.length_replicate _ _) []] at h
  exact Option.noConfusion h

/-! ## The metric flags -/

/-- The option `-h` ends the loop of `dist.c`: `exit(EXIT_SUCCESS)`. -/
theorem dist_option_help (atol : String → Int) (st : parse_state) (optarg : String) :
    dist_option atol st 'h' optarg = none := by
  unfold dist_option
  rw [if_neg (by decide), if_neg (by decide), if_neg (by decide), if_neg (by decide),
    if_neg (by decide), if_neg (by decide), if_neg (by decide), if_neg (by decide),
    if_pos rfl]

/-- Any other option of `dist.c` goes on, and leaves in `tab->row_fn` the
handler of the option when it is a metric flag, else what was there. -/
theorem dist_option_row_fn (atol : String → Int) (st : parse_state) (c : Char)
    (optarg : String) (hc : c ≠ 'h') :
    ∃ st', dist_option atol st c optarg = some st' ∧
      st'.tab.row_fn = match metric_of c with
        | some f => some f
        | none => st.tab.row_fn := by
  unfold dist_option metric_of
  split_ifs with h1 h2 h3 h4 h5 h6 h7 h8
  all_goals exact ⟨_, rfl, rfl⟩

/-- The option loop of `dist.c` with a `-h` among the options has no state to
return: the process has exited. -/
theorem dist_options_help (atol : String → Int) :
    ∀ (opts : List (Char × String)) (st : parse_state), (∃ o ∈ opts, o.1 = 'h') →
      opts.foldlM (fun st o => dist_option atol st o.1 o.2) st = none := by
  intro opts
  induction opts with
  | nil =>
    rintro st ⟨o, ho, _⟩
    exact absurd ho (List.not_mem_nil o)
  | cons o opts ih =>
    intro st hh
    rw [List.foldlM_cons]
    by_cases hc : o.1 = 'h'
    · rw [hc, dist_option_help]
      rfl
    · obtain ⟨st1, h1, _⟩ := dist_option_row_fn atol st o.1 o.2 hc
      rw [h1]
      refine ih st1 ?_
      obtain ⟨x, hx, hxh⟩ := hh
      rcases List.mem_cons.mp hx with rfl | hx
      · exact absurd hxh hc
      · exact ⟨x, hx, hxh⟩

/-- The option loop of `dist.c` on options without `-h` leaves in
`tab->row_fn` the handler of the last metric flag, or what was there when no
metric flag occurs. -/
theorem dist_options_row_fn (atol : String → Int) :
    ∀ (opts : List (Char × String)) (st st' : parse_state),
      opts.foldlM (fun st o => dist_option atol st o.1 o.2) st = some st' →
      st'.tab.row_fn = match last_metric opts with
        | some f => some f
        | none => st.tab.row_fn := by
  intro opts
  induction opts with
  | nil =>
    intro st st' h
    simp only [List.foldlM_nil] at h
    cases h
    rfl
  | cons o opts ih =>
    intro st st' h
    rw [List.foldlM_cons] at h
    by_cases hc : o.1 = 'h'
    · rw [hc, dist_option_help] at h
      exact Option.noConfusion h
    · obtain ⟨st1, h1, hr1⟩ := dist_option_row_fn atol st o.1 o.2 hc
      rw [h1] at h
      have := ih st1 st' h
      rw [this, hr1]
      simp only [last_metric]
      cases last_metric opts <;> cases metric_of o.1 <;> rfl

/-- The end of `parse_args` does not touch `tab->row_fn`. -/
theorem parse_finish_row_fn (can_read can_write : String → Bool) (st st' : parse_state)
    (code : Nat) (h : parse_finish can_read can_write st = parse_result.returned code st') :
    st'.tab.row_fn = st.tab.row_fn := by
  have hsep : ∀ s : parse_state,
      (if s.tab.sep = none then { s with tab := { s.tab with sep := some "\t" } }
        else s).tab.row_fn = s.tab.row_fn := by
    intro s
    split <;> rfl
  have hin : ∀ s : parse_state, (setup_input can_read s).tab.row_fn = s.tab.row_fn := by
    intro s
    unfold setup_input
    split <;> rfl
  have hout : ∀ s : parse_state, (setup_output can_write s).tab.row_fn = s.tab.row_fn := by
    intro s
    unfold setup_output
    split <;> rfl
  unfold parse_finish at h
  simp only at h
  split_ifs at h
  all_goals
    injection h with _ h2
    rw [← h2]
    simp only [hin, hout, hsep]

/-- C18, amended. At least one of the metric flags `-C`, `-m`, `-M` is
required, and nothing checks that there is only one.  For every sequence of
options whose input and output can be opened: with a `-h` in it,
`parse_args` of `dist.c` does not return, the process exits with status 0;
without `-h`, it returns 1 when a metric flag occurs in the sequence, once
or several times, and 0 when none does, and `tab->row_fn` is the handler of
the last metric flag given. -/
theorem parse_args_requires_metric_flag (atol : String → Int)
    (can_read can_write : String → Bool) (hread : ∀ p, can_read p = true)
    (hwrite : ∀ p, can_write p = true) (opts : List (Char × String)) :
    ((∃ o ∈ opts, o.1 = 'h') →
        parse_args atol can_read can_write opts = parse_result.exited 0) ∧
      ((∀ o ∈ opts, o.1 ≠ 'h') →
        ∃ st, parse_args atol can_read can_write opts =
            parse_result.returned
              (if ∃ o ∈ opts, o.1 = 'm' ∨ o.1 = 'M' ∨ o.1 = 'C' then 1 else 0) st ∧
          st.tab.row_fn = last_metric opts) := by
  constructor
  · intro hh
    unfold parse_args
    rw [dist_options_help atol opts _ hh]
  · intro hh
    obtain ⟨st', hloop, hlt, hiff⟩ := dist_options_flag atol opts
      { haveflags := 0, tab := table_t.fresh, number_arg := none } hh (by decide)
    obtain ⟨st2, hfin⟩ := parse_finish_code can_read can_write hread hwrite st' hlt
    have hrow := dist_options_row_fn atol opts _ st' hloop
    have hrow2 := parse_finish_row_fn can_read can_write st' st2 _ hfin
    refine ⟨st2, ?_, ?_⟩
    · unfold parse_args
      rw [hloop]
      simp only [hfin]
      have h0 : ¬ ((0 : Nat) &&& 1 = 1) := by decide
      simp only [h0, false_or] at hiff
      by_cases hm : ∃ o ∈ opts, o.1 = 'm' ∨ o.1 = 'M' ∨ o.1 = 'C'
      · rw [if_pos hm, if_pos (hiff.mpr hm)]
      · rw [if_neg hm, if_neg (fun h => hm (hiff.mp h))]
    · rw [hrow2, hrow]
      cases last_metric opts <;> rfl

/-- C18, amended, on the options `-r 1 -M 3 -m`, which return 1 with the
handler `dm_manhattan` of the last flag, and on `-m -h -C`, which exit. -/
theorem parse_args_requires_metric_flag_witness :
    (∃ st, parse_args (fun _ => 1) (fun _ => true) (fun _ => true)
        [('r', "1"), ('M', "3"), ('m', "")] = parse_result.returned 1 st ∧
        st.tab.row_fn = some row_fn_t.dm_manhattan) ∧
      parse_args (fun _ => 1) (fun _ => true) (fun _ => true)
        [('m', ""), ('h', ""), ('C', "")] = parse_result.exited 0 := by
  constructor
  · obtain ⟨st, h, hr⟩ := (parse_args_requires_metric_flag (fun _ => 1) (fun _ => true)
      (fun _ => true) (fun _ => rfl) (fun _ => rfl) [('r', "1"), ('M', "3"), ('m', "")]).2
      (by decide)
    exact ⟨st, h.trans (by rw [if_pos (by decide)]), hr.trans (by decide)⟩
  · exact (parse_args_requires_metric_flag (fun _ => 1) (fun _ => true)
      (fun _ => true) (fun _ => rfl) (fun _ => rfl) [('m', ""), ('h', ""), ('C', "")]).1
      (by decide)

end TableTK
